import Mathlib

/-!
Verification of the `ogre-config-meld` configuration-management crate.

We give a shallow embedding of the crate's logic:
* `src/logic/serde.rs` — format selection (`AutomaticSerde::for_file_extension`)
  and the two codecs (`RonSerde`, `YamlSerde`), instantiated at the crate's own
  test schema `AppRootConfig` from `src/test_commons/config_models.rs`;
* `src/logic/config_logic.rs` — `save_to_file`, `load_from_file`,
  `load_or_create_default`, `ext_with_dot` and `documented_config_models`;
* `src/logic/cli_logic.rs` — `get_config_file_path` and the effective-config
  rewrite step of `parse_cmdline_and_merge_with_loaded_configs`.

File-system effects are modelled by an explicit association list from paths to
file contents; every operation returns its result together with the updated
file system, so failure paths can be compared with the initial state.
-/

set_option maxRecDepth 10000

/-- Single-quote character (written numerically to keep source lexically plain). -/
def squote : String := String.singleton (Char.ofNat 39)

/-- Backtick character (written numerically to keep source lexically plain). -/
def btick : String := String.singleton (Char.ofNat 96)

/-- `true` iff the character list contains no newline. -/
def noNl (l : List Char) : Bool := l.all (fun c => c != '\n')

/-- Embedding of `crate::Error` (`src/types.rs`).  The `cause` boxes of the
Rust enum are modelled by nesting; `std::io::Error` causes are collapsed to
their `ErrorKind`. -/
inductive CrateError where
  | loadingConfig (message : String) (cause : CrateError)
  | savingConfig (message : String) (cause : CrateError)
  | unsupportedConfigFileFormat (message : String)
  | ron (message : String)
  | yaml (message : String)
  | ioNotFound
  | ioNotADirectory
  deriving Repr, DecidableEq

/-- Decidable equality for `Except`, used to evaluate concrete results. -/
instance exceptDecEq {ε α : Type} [DecidableEq ε] [DecidableEq α] :
    DecidableEq (Except ε α) := fun a b =>
  match a, b with
  | .ok x, .ok y => if h : x = y then .isTrue (by rw [h]) else .isFalse (by simp [h])
  | .error x, .error y =>
      if h : x = y then .isTrue (by rw [h]) else .isFalse (by simp [h])
  | .ok _, .error _ => .isFalse (by simp)
  | .error _, .ok _ => .isFalse (by simp)

/-- Embedding of `SerdeFormat` (`src/logic/serde.rs`). -/
inductive SerdeFormat where
  | ron
  | yaml
  deriving Repr, DecidableEq

/-- First half of the diagnostic of `AutomaticSerde::for_file_extension`. -/
def unsupportedMsgA : String :=
  btick ++ "cli-config" ++ btick ++ ": Unsupported config file extension: " ++ squote

/-- Second half of the diagnostic of `AutomaticSerde::for_file_extension`. -/
def unsupportedMsgB : String :=
  squote ++ ". Supported extensions are " ++ squote ++ ".ron" ++ squote ++ ", " ++ squote
    ++ ".yaml" ++ squote
    ++ " and " ++ squote ++ ".yml" ++ squote

/-- Embedding of `AutomaticSerde::for_file_extension` (`src/logic/serde.rs`,
lines 44–52): `.ron` → RON, `.yaml`/`.yml` → YAML, anything else is an
`UnsupportedConfigFileFormat` error naming the extension. -/
def forFileExtension (fileExtension : String) : Except CrateError SerdeFormat :=
  if fileExtension = ".ron" then .ok .ron
  else if fileExtension = ".yaml" then .ok .yaml
  else if fileExtension = ".yml" then .ok .yaml
  else .error (.unsupportedConfigFileFormat
    (unsupportedMsgA ++ fileExtension ++ unsupportedMsgB))

/-- Index of the last occurrence of `c` in `l` (Rust `str::rfind`). -/
def lastIdxOf (c : Char) (l : List Char) : Option Nat :=
  match l with
  | [] => none
  | x :: xs =>
    match lastIdxOf c xs with
    | some i => some (i + 1)
    | none => if x = c then some 0 else none

/-- Split a character list at every occurrence of `sep` (separators dropped;
`n` separators yield `n + 1` chunks). -/
def splitCh (sep : Char) : List Char → List (List Char)
  | [] => [[]]
  | c :: r =>
    if c = sep then [] :: splitCh sep r
    else
      match splitCh sep r with
      | [] => [[c]]
      | h :: t => (c :: h) :: t

/-- Embedding of Rust `Path::file_name` for the paths used here: the last
`/`-separated component, with `.`-components normalized away and `..` giving
`none`. -/
def fileName (path : String) : Option String :=
  match (splitCh '/' path.data).filter (fun s => s ≠ [] ∧ s ≠ ['.']) with
  | [] => none
  | comps =>
    match comps.getLast? with
    | some last => if last = ['.', '.'] then none else some (String.mk last)
    | none => none

/-- Embedding of `ext_with_dot` (`src/logic/config_logic.rs`, lines 108–114):
the file name's suffix from its last dot (dot included), `none` if the file
name has no dot. -/
def extWithDot (path : String) : Option String :=
  (fileName path).bind fun name =>
    (lastIdxOf '.' name.data).map fun i => String.mk (name.data.drop i)

/-!  ### The crate's own test schema (`src/test_commons/config_models.rs`)

The pipeline is generic over the integrator's schema; we instantiate it at the
repository's own `AppRootConfig` test schema, the concrete schema the crate's
tests exercise. -/

/-- Embedding of `enum Dummy` (`src/test_commons/config_models.rs`). -/
inductive Dummy where
  | dNull
  | dStdOut
  | dStdError
  deriving Repr, DecidableEq

/-- Embedding of `struct LogConfig` (`src/test_commons/config_models.rs`). -/
structure LogConfig where
  sink : Option Dummy
  deriving Repr, DecidableEq

/-- Embedding of `struct AppRootConfig` (`src/test_commons/config_models.rs`). -/
structure AppRootConfig where
  log_sub_config : LogConfig
  deriving Repr, DecidableEq

/-- `AppRootConfig::default()` (all fields defaulted; `Option` defaults to `None`). -/
def appRootConfigDefault : AppRootConfig := ⟨⟨none⟩⟩

/-- The serde name of a `Dummy` variant (used verbatim by both codecs). -/
def dummyName : Dummy → String
  | .dNull => "Null"
  | .dStdOut => "StdOut"
  | .dStdError => "StdError"

/-!  ### RON codec (`RonSerde`, `src/logic/serde.rs` lines 78–114) -/

/-- RON rendering of the `sink` field value (`ron::ser::to_string_pretty`). -/
def ronSinkText (sink : Option Dummy) : String :=
  match sink with
  | none => "None"
  | some d => "Some(" ++ dummyName d ++ ")"

/-- The text `ron::ser::to_string_pretty(&config, PrettyConfig::default())`
produces for an `AppRootConfig` (4-space indent, one field per line,
trailing commas, anonymous structs). -/
def ronValueText (c : AppRootConfig) : String :=
  "(\n    log_sub_config: (\n        sink: " ++ ronSinkText c.log_sub_config.sink
    ++ ",\n    ),\n)"

/-- The banner pushed by `RonSerde::serialize_config` (line 94). -/
def ronDocsBanner : String :=
  "///////////////////////////// DOCS //////////////////////////////\n"

/-- Embedding of `RonSerde::serialize_config`: the pretty-printed value, then —
only for a non-empty `tail_comment` — a block comment `/*` … `*/` holding the
banner and the documentation. -/
def ronSerializeConfig (c : AppRootConfig) (tailComment : String) :
    Except CrateError String :=
  .ok (if tailComment.isEmpty then ronValueText c
       else ronValueText c ++ "\n\n/*\n" ++ ronDocsBanner ++ tailComment ++ "\n*/\n")

/-- Modes of the RON trivia scanner: plain text, inside a `//` line comment,
inside a (nestable) block comment at a given depth. -/
inductive TriviaMode where
  | normal
  | line
  | block (depth : Nat)

/-- Whitespace characters the RON parser skips. -/
def isRonWs (c : Char) : Bool := c == ' ' || c == '\t' || c == '\n' || c == '\r'

/-- Trivia scanner of the RON parser (`ron::Options::default().from_str`):
skips whitespace, `//` line comments and nestable `/* … */` block comments;
`none` on an unterminated block comment. -/
def skipTriviaGo : TriviaMode → List Char → Option (List Char)
  | .normal, [] => some []
  | .normal, [c] =>
    if c = '/' then some [c]
    else if isRonWs c then some []
    else some [c]
  | .normal, c :: c2 :: r2 =>
    if c = '/' then
      if c2 = '/' then skipTriviaGo .line r2
      else if c2 = '*' then skipTriviaGo (.block 1) r2
      else some (c :: c2 :: r2)
    else if isRonWs c then skipTriviaGo .normal (c2 :: r2)
    else some (c :: c2 :: r2)
  | .line, [] => some []
  | .line, c :: r => if c = '\n' then skipTriviaGo .normal r else skipTriviaGo .line r
  | .block _, [] => none
  | .block _, [_] => none
  | .block d, c :: c2 :: r2 =>
    if c = '*' then
      if c2 = '/' then
        if d ≤ 1 then skipTriviaGo .normal r2 else skipTriviaGo (.block (d - 1)) r2
      else skipTriviaGo (.block d) (c2 :: r2)
    else if c = '/' then
      if c2 = '*' then skipTriviaGo (.block (d + 1)) r2
      else skipTriviaGo (.block d) (c2 :: r2)
    else skipTriviaGo (.block d) (c2 :: r2)

/-- Skip RON trivia starting in plain-text mode. -/
def skipTrivia (l : List Char) : Option (List Char) := skipTriviaGo .normal l

/-- Expect the literal characters `pat`, returning the rest. -/
def expectStr (pat : String) (l : List Char) : Option (List Char) :=
  if pat.data.isPrefixOf l then some (l.drop pat.data.length) else none

/-- Parse the RON rendering of the `sink` value. -/
def ronParseSink (l : List Char) : Option (Option Dummy × List Char) :=
  match expectStr "None" l with
  | some r => some (none, r)
  | none =>
    (expectStr "Some(" l).bind fun r =>
    (skipTrivia r).bind fun r =>
    (match expectStr "Null" r with
     | some r2 => some (Dummy.dNull, r2)
     | none => match expectStr "StdOut" r with
       | some r2 => some (Dummy.dStdOut, r2)
       | none => (expectStr "StdError" r).map fun r2 => (Dummy.dStdError, r2)).bind
    fun (d, r) =>
    (skipTrivia r).bind fun r =>
    (expectStr ")" r).map fun r => (some d, r)

/-- Parse an optional comma. -/
def ronOptComma (l : List Char) : List Char :=
  match l with
  | [] => l
  | c :: r => if c = ',' then r else l

/-- Parse a RON struct-field key: trivia, the identifier, trivia, `:`, trivia. -/
def ronParseKey (name : String) (l : List Char) : Option (List Char) := do
  let r ← skipTrivia l
  let r ← expectStr name r
  let r ← skipTrivia r
  let r ← expectStr ":" r
  skipTrivia r

/-- Parse the end of a RON struct: trivia, an optional trailing comma with
trivia, and the closing parenthesis. -/
def ronParseStructClose (l : List Char) : Option (List Char) := do
  let r ← skipTrivia l
  let r ← skipTrivia (ronOptComma r)
  expectStr ")" r

/-- Parse the RON value for this schema: an anonymous struct with a
`log_sub_config` field holding a struct with a `sink` field; returns the
value and the unconsumed rest. -/
def ronParseValue (l : List Char) : Option (AppRootConfig × List Char) := do
  let r ← skipTrivia l
  let r ← expectStr "(" r
  let r ← ronParseKey "log_sub_config" r
  let r ← expectStr "(" r
  let r ← ronParseKey "sink" r
  let (sink, r) ← ronParseSink r
  let r ← ronParseStructClose r
  let r ← ronParseStructClose r
  some (⟨⟨sink⟩⟩, r)

/-- The RON parser (`ron::Options::default().from_str::<AppRootConfig>`)
restricted to this schema: the value, then trivia (whitespace and comments)
up to the end of input; `none` if anything else remains. -/
def ronParse (l : List Char) : Option AppRootConfig := do
  let (config, r) ← ronParseValue l
  let r ← skipTrivia r
  match r with
  | [] => some config
  | _ => none

/-- Embedding of `RonSerde::deserialize_config`: parse, wrapping failures in
`Error::Ron` with the offending text in the message. -/
def ronDeserializeConfig (txt : String) : Except CrateError AppRootConfig :=
  match ronParse txt.data with
  | some c => .ok c
  | none => .error (.ron ("RON deserialization error for config text "
      ++ squote ++ txt ++ squote))

/-!  ### YAML codec (`YamlSerde`, `src/logic/serde.rs` lines 116–152) -/

/-- YAML scalar for the `sink` value (`serde_yaml::to_string`): `null` for
`None`, the variant name for `Some`. -/
def yamlSinkText (sink : Option Dummy) : String :=
  match sink with
  | none => "null"
  | some d => dummyName d

/-- The text `serde_yaml::to_string` produces for an `AppRootConfig`
(2-space indent, trailing newline). -/
def yamlValueText (c : AppRootConfig) : String :=
  "log_sub_config:\n  sink: " ++ yamlSinkText c.log_sub_config.sink ++ "\n"

/-- The banner pushed by `YamlSerde::serialize_config` (line 135). -/
def yamlDocsBanner : String :=
  "############################# DOCS ##############################\n"

/-- Action of the Rust regex `(?m)^` → `"# "` replacement on the character
list: `# ` is inserted at the start and after every newline (a trailing
newline also gets the insertion, matching the regex's empty match at the end
of the haystack). -/
def commentify : List Char → List Char
  | [] => []
  | c :: r =>
    if c = '\n' then '\n' :: '#' :: ' ' :: commentify r
    else c :: commentify r

/-- Embedding of `YamlSerde::serialize_config`: the serialized value, then —
only for a non-empty `tail_comment` — a blank line, the banner, and the
documentation with every line prefixed by `# `. -/
def yamlSerializeConfig (c : AppRootConfig) (tailComment : String) :
    Except CrateError String :=
  .ok (if tailComment.isEmpty then yamlValueText c
       else yamlValueText c ++ "\n" ++ yamlDocsBanner
            ++ String.mk ('#' :: ' ' :: commentify tailComment.data))

/-- Trailer scanner of the YAML parser: after the value, only blank lines and
`#` comment lines may remain.  The `Bool` is `true` inside a comment line. -/
def yamlTailOkGo : Bool → List Char → Bool
  | _, [] => true
  | false, c :: r =>
    if c = '\n' then yamlTailOkGo false r
    else if c = '#' then yamlTailOkGo true r
    else false
  | true, c :: r =>
    if c = '\n' then yamlTailOkGo false r
    else yamlTailOkGo true r

/-- Parse the YAML scalar rendering of the `sink` value. -/
def yamlParseSink : String → Option (Option Dummy)
  | "null" => some none
  | "Null" => some (some .dNull)
  | "StdOut" => some (some .dStdOut)
  | "StdError" => some (some .dStdError)
  | _ => none

/-- The YAML parser (`serde_yaml::from_str::<AppRootConfig>`) restricted to
this schema: the `log_sub_config`/`sink` mapping, then only comment or blank
lines up to the end of input. -/
def yamlParse (l : List Char) : Option AppRootConfig := do
  let r ← expectStr "log_sub_config:\n  sink: " l
  let scalar := r.takeWhile (fun c => c ≠ '\n')
  let r := r.dropWhile (fun c => c ≠ '\n')
  let r ← expectStr "\n" r
  let sink ← yamlParseSink (String.mk scalar)
  if yamlTailOkGo false r then some ⟨⟨sink⟩⟩ else none

/-- Embedding of `YamlSerde::deserialize_config`: parse, wrapping failures in
`Error::Yaml` with the offending text in the message. -/
def yamlDeserializeConfig (txt : String) : Except CrateError AppRootConfig :=
  match yamlParse txt.data with
  | some c => .ok c
  | none => .error (.yaml ("YAML deserialization error for config text "
      ++ squote ++ txt ++ squote))

/-!  ### Automatic codec dispatch (`impl ConfigSerde for AutomaticSerde`) -/

/-- `AutomaticSerde::serialize_config`: dispatch on the selected format. -/
def serializeConfig (fmt : SerdeFormat) (c : AppRootConfig) (tailComment : String) :
    Except CrateError String :=
  match fmt with
  | .ron => ronSerializeConfig c tailComment
  | .yaml => yamlSerializeConfig c tailComment

/-- `AutomaticSerde::deserialize_config`: dispatch on the selected format. -/
def deserializeConfig (fmt : SerdeFormat) (txt : String) :
    Except CrateError AppRootConfig :=
  match fmt with
  | .ron => ronDeserializeConfig txt
  | .yaml => yamlDeserializeConfig txt

/-!  ### File-system model

Regular files only, as an association list from path strings to contents.
POSIX behaviour relevant here: a path is unusable (`ENOTDIR`) when a proper
prefix of it, up to a `/`, is an existing regular file. -/

/-- The file-system state: a list of (path, contents) regular files. -/
abbrev FS := List (String × String)

/-- Contents of the file at `p`, if one exists. -/
def fsLookup (fs : FS) (p : String) : Option String :=
  match fs.find? (fun e => e.1 = p) with
  | some e => some e.2
  | none => none

/-- Rust `Path::exists` over the model. -/
def fsExists (fs : FS) (p : String) : Bool := (fsLookup fs p).isSome

/-- `true` when some existing regular file is a proper directory-style prefix
of `p` — any syscall on `p` then fails with `ENOTDIR`. -/
def dirObstructed (fs : FS) (p : String) : Bool :=
  fs.any (fun e => (e.1 ++ "/").data.isPrefixOf p.data)

/-- `std::fs::read_to_string`: the contents, `NotFound` for a missing file,
`NotADirectory` for an obstructed path. -/
def fsRead (fs : FS) (p : String) : Except CrateError String :=
  match fsLookup fs p with
  | some c => .ok c
  | none => if dirObstructed fs p then .error .ioNotADirectory else .error .ioNotFound

/-- `std::fs::write`: create or truncate-and-replace the file at `p`. -/
def fsWrite (fs : FS) (p c : String) : Except CrateError FS :=
  if dirObstructed fs p then .error .ioNotADirectory
  else .ok ((p, c) :: fs.filter (fun e => e.1 ≠ p))

/-- `fs::rename`: move `src` onto `dst` (replacing `dst` if present); fails
with `NotFound` for a missing source and `NotADirectory` for an obstructed
path (e.g. a destination lying "inside" a regular file). -/
def fsRename (fs : FS) (src dst : String) : Except CrateError FS :=
  match fsLookup fs src with
  | none => if dirObstructed fs src then .error .ioNotADirectory else .error .ioNotFound
  | some content =>
    if dirObstructed fs dst then .error .ioNotADirectory
    else .ok ((dst, content) :: fs.filter (fun e => e.1 ≠ src ∧ e.1 ≠ dst))

/-- Rust `{path:?}` debug rendering of a path (quoted). -/
def dbgQ (p : String) : String := "\"" ++ p ++ "\""

/-!  ### Config store (`src/logic/config_logic.rs`) -/

/-- Embedding of `save_to_file` (lines 30–63): extension → codec → serialized
text → `fs::write`, each failure wrapped in `Error::SavingConfig` with the
path attached.  The updated file system is returned alongside the result. -/
def saveToFile (config : AppRootConfig) (tailComment : String)
    (configFilePath : String) (fs : FS) : Except CrateError Unit × FS :=
  match extWithDot configFilePath with
  | none =>
    (.error (.savingConfig ("Error instantiating the automatic serde for file "
        ++ dbgQ configFilePath)
        (.unsupportedConfigFileFormat "Config file without an extension is not supported")),
     fs)
  | some fileExtension =>
    match forFileExtension fileExtension with
    | .error err =>
      (.error (.savingConfig ("Error instantiating the automatic serde for file "
          ++ dbgQ configFilePath) err), fs)
    | .ok serde =>
      match serializeConfig serde config tailComment with
      | .error err =>
        (.error (.savingConfig ("Error serializing config for saving into "
            ++ dbgQ configFilePath) err), fs)
      | .ok txtConfig =>
        match fsWrite fs configFilePath txtConfig with
        | .error err =>
          (.error (.savingConfig ("Error saving config into "
              ++ dbgQ configFilePath) err), fs)
        | .ok fs2 => (.ok (), fs2)

/-- Embedding of `load_from_file` (lines 66–106), in source order: first the
extension is extracted (`none` → `LoadingConfig` error), then the file is read
(`NotFound` → `Ok(None)`, other failures → `LoadingConfig`), and only then is
the codec resolved from the extension and the text deserialized. -/
def loadFromFile (configFilePath : String) (fs : FS) :
    Except CrateError (Option AppRootConfig) :=
  match extWithDot configFilePath with
  | none =>
    .error (.loadingConfig ("Error instantiating the automatic serde for file "
      ++ dbgQ configFilePath)
      (.unsupportedConfigFileFormat "Config file without an extension is not supported"))
  | some fileExtension =>
    match fsRead fs configFilePath with
    | .error err =>
      if err = .ioNotFound then .ok none
      else .error (.loadingConfig ("Error loading config from "
        ++ dbgQ configFilePath) err)
    | .ok txtConfig =>
      match forFileExtension fileExtension with
      | .error err =>
        .error (.loadingConfig ("Error instantiating the automatic serde for file "
          ++ dbgQ configFilePath) err)
      | .ok serde =>
        match deserializeConfig serde txtConfig with
        | .error err =>
          .error (.loadingConfig ("Error deserializing config after loading from "
            ++ dbgQ configFilePath) err)
        | .ok config => .ok (some config)

/-- Embedding of `load_or_create_default` (lines 13–26): load; on `None`
persist the default value and return it. -/
def loadOrCreateDefault (configFilePath : String) (tailComments : String) (fs : FS) :
    Except CrateError AppRootConfig × FS :=
  match loadFromFile configFilePath fs with
  | .error e => (.error e, fs)
  | .ok (some config) => (.ok config, fs)
  | .ok none =>
    match saveToFile appRootConfigDefault tailComments configFilePath fs with
    | (.error e, fs2) => (.error e, fs2)
    | (.ok _, fs2) => (.ok appRootConfigDefault, fs2)

/-!  ### CLI logic (`src/logic/cli_logic.rs`) -/

/-- Embedding of Rust `PathBuf::push`: an absolute `child` replaces `self`;
otherwise `child` is appended as a new path component, with a `/` separator
inserted unless `self` is empty or already ends in `/`. -/
def pathBufPush (self child : String) : String :=
  if child.data.head? = some '/' then child
  else if self = "" then child
  else if self.data.getLast? = some '/' then self ++ child
  else self ++ "/" ++ child

/-- `CONFIG_SUFFIXES` (`src/logic/cli_logic.rs` lines 94–97). -/
def CONFIG_SUFFIXES : List String := [".config.ron", ".config.yaml"]

/-- The candidate-search loop of `default_config_file_path` (lines 103–110):
the first `program_name ++ suffix` existing on disk. -/
def firstExistingCandidate (programName : String) (fs : FS) : List String → Option String
  | [] => none
  | sfx :: rest =>
    if fsExists fs (programName ++ sfx) then some (programName ++ sfx)
    else firstExistingCandidate programName fs rest

/-- Embedding of `default_config_file_path` (lines 92–115): the first existing
candidate, or `program_name ++ CONFIG_SUFFIXES[0]` when none exists. -/
def defaultConfigFilePath (programName : String) (fs : FS) : String :=
  match firstExistingCandidate programName fs CONFIG_SUFFIXES with
  | some p => p
  | none => programName ++ CONFIG_SUFFIXES[0]!

/-- Embedding of `get_config_file_path` (lines 85–125): a CLI-supplied path is
used verbatim; otherwise the default-candidate search runs.  The CLI options
and the program name (from `args[0]`) are passed as values. -/
def getConfigFilePath (cliConfigFilePath : Option String) (programName : String)
    (fs : FS) : String :=
  match cliConfigFilePath with
  | some p => p
  | none => defaultConfigFilePath programName fs

/-- Embedding of the `should_write_effective_config` block of
`parse_cmdline_and_merge_with_loaded_configs` (lines 39–71): compute the
backup path with `PathBuf::push("~")`, regenerate the documentation (the
`format!` of lines 44–62, which re-runs `load_or_create_default`; the
timestamp/Debug formatting is abstracted as `docFmt` of the re-loaded
config), rename the config file to the backup path (failure aborts), then
`save_to_file` the effective configuration. -/
def rewriteEffectiveConfig (configFilePath : String) (effectiveConfig : AppRootConfig)
    (tailDocs : String) (docFmt : AppRootConfig → String) (fs : FS) :
    Except CrateError Unit × FS :=
  let backupConfigFilePath := pathBufPush configFilePath "~"
  match loadOrCreateDefault configFilePath tailDocs fs with
  | (.error e, fs1) => (.error e, fs1)
  | (.ok loadedConfig, fs1) =>
    let docComments := docFmt loadedConfig
    match fsRename fs1 configFilePath backupConfigFilePath with
    | .error err =>
      (.error (.savingConfig ("Error rewriting the config file " ++ dbgQ configFilePath
        ++ " with a new effective configuration: the file couldn't be renamed to "
        ++ dbgQ backupConfigFilePath) err), fs1)
    | .ok fs2 => saveToFile effectiveConfig docComments configFilePath fs2

/-- Embedding of `parse_cmdline_and_merge_with_loaded_configs` (lines 14–74):
resolve the path, load-or-create, merge the CLI options in (the integrator's
`merge_with_config`, passed as `mergeWithConfig`), then optionally rewrite.
The diagnostic dump to stderr (lines 29–37) has no file-system effect and is
not modelled. -/
def parseCmdlineAndMergeWithLoadedConfigs (cliConfigFilePath : Option String)
    (shouldWriteEffectiveConfig : Bool) (programName : String)
    (mergeWithConfig : AppRootConfig → AppRootConfig) (tailDocs : String)
    (docFmt : AppRootConfig → String) (fs : FS) :
    Except CrateError AppRootConfig × FS :=
  let configFilePath := getConfigFilePath cliConfigFilePath programName fs
  match loadOrCreateDefault configFilePath tailDocs fs with
  | (.error e, fs1) => (.error e, fs1)
  | (.ok loadedConfig, fs1) =>
    let effectiveConfig := mergeWithConfig loadedConfig
    if shouldWriteEffectiveConfig then
      match rewriteEffectiveConfig configFilePath effectiveConfig tailDocs docFmt fs1 with
      | (.error e, fs2) => (.error e, fs2)
      | (.ok _, fs2) => (.ok effectiveConfig, fs2)
    else (.ok effectiveConfig, fs1)

/-!  ### Documentation extractor (`documented_config_models`,
`src/logic/config_logic.rs` lines 124–162)

Each regex/replacement pair of `REPLACEMENTS` is embedded as a left-to-right
scanner with the exact `replace_all` semantics of the `regex` crate (leftmost
match, scanning resumes after the matched region, replacement text is not
rescanned).  All regexes are built with `dot_matches_new_line(true)`. -/

/-- `true` iff some pattern in `pfxs` is a prefix of `l`. -/
def anyPfx (pfxs : List (List Char)) (l : List Char) : Bool :=
  pfxs.any (fun p => p.isPrefixOf l)

/-- Scanner state for the `"\nPFX[^\n]*"` removal rules: copying text, or
deleting the remainder of a matched line. -/
inductive LineRuleMode where
  | scan
  | del

/-- `replace_all` of a regex `\nP₁[^\n]*|\nP₂[^\n]*|…` (each `Pᵢ` a literal
with no newline) with the empty replacement: a `\n` followed by one of the
alternatives deletes everything up to (not including) the next newline. -/
def removeAnchoredGo (pfxs : List (List Char)) : LineRuleMode → List Char → List Char
  | _, [] => []
  | m, c :: r =>
    if c = '\n' then
      if anyPfx pfxs r then removeAnchoredGo pfxs .del r
      else '\n' :: removeAnchoredGo pfxs .scan r
    else
      match m with
      | .scan => c :: removeAnchoredGo pfxs .scan r
      | .del => removeAnchoredGo pfxs .del r

/-- Rule 1, regex `"\n//![^\n]*"` → `""`: remove file doc comments. -/
def removeFileDocComments (l : List Char) : List Char :=
  removeAnchoredGo ["//!".data] .scan l

/-- Rule 2, regex `"\nmod [^\n]*|\npub use [^\n]*"` → `""`: remove `mod` and
`pub use` clauses. -/
def removeModAndPubUseClauses (l : List Char) : List Char :=
  removeAnchoredGo ["mod ".data, "pub use ".data] .scan l

/-- Rule 3, regex `"\nuse [^\n]*"` → `""`: remove `use` clauses. -/
def removeUseClauses (l : List Char) : List Char :=
  removeAnchoredGo ["use ".data] .scan l

/-- Rule 4, regex `"\n#[^\n]*"` → `""`: remove macros and `#[derive(...)]`
clauses. -/
def removeAttrLines (l : List Char) : List Char :=
  removeAnchoredGo ["#".data] .scan l

/-- `true` iff `\n}` occurs somewhere in `l`. -/
def hasNlBrace : List Char → Bool
  | [] => false
  | c :: r =>
    if c = '\n' then
      match r with
      | [] => false
      | c2 :: _ => if c2 = '}' then true else hasNlBrace r
    else hasNlBrace r

/-- The literal `impl ` of rule 5's pattern. -/
def implPfx : List Char := "impl ".data

/-- Scanner state for rule 5: copying text, or inside a matched `impl` block. -/
inductive ImplRuleMode where
  | scan
  | inImpl

/-- Rule 5, regex `"\nimpl .*?\n}.*?\n?"` (dotall, lazy) → `"\n"`: a match
runs from a `\n` followed by `impl ` up to the first `\n}`; the lazy `.*?`
then matches empty and the greedy `\n?` consumes one following newline if
present.  The match is replaced by a single `\n` and scanning resumes after
it (the replacement itself is not rescanned). -/
def removeImplsGo : ImplRuleMode → List Char → List Char
  | .scan, [] => []
  | .scan, c :: r =>
    if c = '\n' then
      if implPfx.isPrefixOf r && hasNlBrace r then removeImplsGo .inImpl r
      else '\n' :: removeImplsGo .scan r
    else c :: removeImplsGo .scan r
  | .inImpl, [] => []
  | .inImpl, [_] => []
  | .inImpl, [c, c2] =>
    if c = '\n' then (if c2 = '}' then ['\n'] else []) else []
  | .inImpl, c :: c2 :: c3 :: r3 =>
    if c = '\n' then
      if c2 = '}' then
        if c3 = '\n' then '\n' :: removeImplsGo .scan r3
        else '\n' :: removeImplsGo .scan (c3 :: r3)
      else removeImplsGo .inImpl (c2 :: c3 :: r3)
    else removeImplsGo .inImpl (c2 :: c3 :: r3)

/-- Rule 5 entry point: remove any impls. -/
def removeImpls (l : List Char) : List Char := removeImplsGo .scan l

/-- Scanner state for rule 6: copying text, or inside a newline run whose
excess is being dropped. -/
inductive ColMode where
  | scan
  | run

/-- Rule 6, regex `"\n\n+"` → `"\n\n"`: standardize the number of consecutive
empty lines — each maximal run of two or more newlines becomes exactly two. -/
def collapseNlGo : ColMode → List Char → List Char
  | .scan, [] => []
  | .scan, c :: r =>
    if c = '\n' then
      match r with
      | [] => ['\n']
      | c2 :: r2 =>
        if c2 = '\n' then '\n' :: '\n' :: collapseNlGo .run r2
        else '\n' :: collapseNlGo .scan (c2 :: r2)
    else c :: collapseNlGo .scan r
  | .run, [] => []
  | .run, c :: r =>
    if c = '\n' then collapseNlGo .run r
    else c :: collapseNlGo .scan r

/-- Rule 6 entry point. -/
def standardizeEmptyLines (l : List Char) : List Char := collapseNlGo .scan l

/-- Concatenation loop of `documented_config_models` (lines 144–151): each
file's raw text preceded by a `\n`. -/
def mergeFiles : List String → String
  | [] => ""
  | src :: rest => "\n" ++ src ++ mergeFiles rest

/-- Embedding of `documented_config_models` (lines 124–162): a `\n`, then the
concatenated files, then the six `REPLACEMENTS` rules applied sequentially in
their fixed order, each rule operating on the previous rule's output. -/
def documentedConfigModels (files : List String) : String :=
  let mergedDocs := "\n" ++ mergeFiles files
  String.mk (standardizeEmptyLines (removeImpls (removeAttrLines (removeUseClauses
    (removeModAndPubUseClauses (removeFileDocComments mergedDocs.data))))))

/-!  ### Auxiliary notions used by the statements -/

/-- `true` iff the `Except` value is an `ok`. -/
def exceptIsOk {ε α : Type} : Except ε α → Bool
  | .ok _ => true
  | .error _ => false

/-- The round trip of spec §8: serialize with tail documentation, then
deserialize, in one codec. -/
def serializeThenDeserialize (fmt : SerdeFormat) (c : AppRootConfig)
    (doc : String) : Except CrateError AppRootConfig :=
  match serializeConfig fmt c doc with
  | .error e => .error e
  | .ok txt => deserializeConfig fmt txt

/-- `true` iff `pat` occurs as a contiguous subsequence of `l`. -/
def containsSeq (pat : List Char) : List Char → Bool
  | [] => pat.isPrefixOf []
  | c :: r => pat.isPrefixOf (c :: r) || containsSeq pat (r : List Char)

/-- `true` iff `l` contains a block-comment delimiter (`/*` or `*/`). -/
def hasDelim (l : List Char) : Bool :=
  containsSeq "/*".data l || containsSeq "*/".data l

/-- Split a character list at newlines (the newlines are dropped; `n`
newlines yield `n + 1` lines). -/
def splitNl (l : List Char) : List (List Char) := splitCh '\n' l

/-- Join lines, writing a `\n` before each line (the shape in which the
documentation extractor's merged input naturally decomposes). -/
def jnTail : List (List Char) → List Char
  | [] => []
  | l :: ls => '\n' :: (l ++ jnTail ls)

/-!  ### A structured input class for the documentation extractor

The claims about `documented_config_models` quantify over source texts made
of doc-comment lines, `mod`/`use` declarations, attribute lines, plain
(field-declaration) lines, blank lines, and one implementation block.  The
type `SrcItem` is the rendering-side grammar of such inputs. -/

/-- One logical line (or `impl` block) of a configuration-model source file. -/
inductive SrcItem where
  | docLine (s : String)
  | modLine (s : String)
  | pubUseLine (s : String)
  | useLine (s : String)
  | attrLine (s : String)
  | blankLine
  | textLine (s : String)
  | implBlock (hdr : String) (body : List String)

/-- The raw text lines an item renders to. -/
def itemLines : SrcItem → List (List Char)
  | .docLine s => [("//!" ++ s).data]
  | .modLine s => [("mod " ++ s).data]
  | .pubUseLine s => [("pub use " ++ s).data]
  | .useLine s => [("use " ++ s).data]
  | .attrLine s => [("#" ++ s).data]
  | .blankLine => [[]]
  | .textLine s => [s.data]
  | .implBlock hdr body => ("impl " ++ hdr).data :: (body.map String.data ++ [['}']])

/-- All raw text lines of a file. -/
def fileLines (items : List SrcItem) : List (List Char) :=
  (items.map itemLines).flatten

/-- Render a file: each line followed by a newline. -/
def renderItems (items : List SrcItem) : String :=
  String.mk ((fileLines items).foldr (fun l acc => l ++ '\n' :: acc) [])

/-- A plain text line is well-formed when it has no newline and does not
begin like any construct the extractor removes. -/
def textLineOk (s : String) : Bool :=
  noNl s.data && !("//!".data.isPrefixOf s.data) && !("mod ".data.isPrefixOf s.data)
    && !("pub use ".data.isPrefixOf s.data) && !("use ".data.isPrefixOf s.data)
    && !("#".data.isPrefixOf s.data) && !(implPfx.isPrefixOf s.data)

/-- An `impl` body line is well-formed when it has no newline and does not
start with `}` (so the block's own closing line is its first `\n}`). -/
def bodyLineOk (s : String) : Bool :=
  noNl s.data && s.data.head? ≠ some '}'

/-- Well-formedness of one item. -/
def itemOk : SrcItem → Bool
  | .docLine s => noNl s.data
  | .modLine s => noNl s.data
  | .pubUseLine s => noNl s.data
  | .useLine s => noNl s.data
  | .attrLine s => noNl s.data
  | .blankLine => true
  | .textLine s => textLineOk s
  | .implBlock hdr body => noNl hdr.data && body.all bodyLineOk

/-- `true` iff the item is an `impl` block. -/
def isImplBlock : SrcItem → Bool
  | .implBlock _ _ => true
  | _ => false

/-- Number of `impl` blocks across all files. -/
def implCount (files : List (List SrcItem)) : Nat :=
  (files.map (fun f => f.countP isImplBlock)).sum

/-- Well-formedness of an input collection: every item well-formed, and (as
in the claim, which speaks of *one* implementation block) at most one `impl`
block overall. -/
def filesOk (files : List (List SrcItem)) : Bool :=
  files.all (fun f => f.all itemOk) && implCount files ≤ 1

/-!  ### Line-level bookkeeping for the documentation-extractor analysis

The six rules act linewise on the merged input; the following definitions
name the line lists at each stage, so the extractor's behaviour can be
stated as an equality between rendered line lists. -/

/-- A line survives rule 1 iff it does not start with `//!`. -/
def keep1 (l : List Char) : Bool := !anyPfx ["//!".data] l

/-- A line survives rule 2 iff it starts with neither `mod ` nor `pub use `. -/
def keep2 (l : List Char) : Bool := !anyPfx ["mod ".data, "pub use ".data] l

/-- A line survives rule 3 iff it does not start with `use `. -/
def keep3 (l : List Char) : Bool := !anyPfx ["use ".data] l

/-- A line survives rule 4 iff it does not start with `#`. -/
def keep4 (l : List Char) : Bool := !anyPfx ["#".data] l

/-- The combined linewise effect of rules 1–4 on a line list. -/
def lines4 (ls : List (List Char)) : List (List Char) :=
  (((ls.filter keep1).filter keep2).filter keep3).filter keep4

/-- The lines of one item surviving rules 1–4. -/
def kept14ItemLines : SrcItem → List (List Char)
  | .docLine _ => []
  | .modLine _ => []
  | .pubUseLine _ => []
  | .useLine _ => []
  | .attrLine _ => []
  | .blankLine => [[]]
  | .textLine s => [s.data]
  | .implBlock hdr body =>
      ("impl " ++ hdr).data ::
        (((((body.filter (fun s => keep1 s.data)).filter
            (fun s => keep2 s.data)).filter
            (fun s => keep3 s.data)).filter
            (fun s => keep4 s.data)).map String.data ++ [['}']])

/-- The `impl`-body lines surviving rules 1–4, rendered. -/
def kept14Body (body : List String) : List (List Char) :=
  ((((body.filter (fun s => keep1 s.data)).filter
      (fun s => keep2 s.data)).filter
      (fun s => keep3 s.data)).filter
      (fun s => keep4 s.data)).map String.data

/-- The lines of one item surviving all five removal rules. -/
def keptItemLines : SrcItem → List (List Char)
  | .docLine _ => []
  | .modLine _ => []
  | .pubUseLine _ => []
  | .useLine _ => []
  | .attrLine _ => []
  | .blankLine => [[]]
  | .textLine s => [s.data]
  | .implBlock _ _ => []

/-- All raw lines of the merged input: an empty separator line before each
file, then the file's lines. -/
def bigLines (files : List (List SrcItem)) : List (List Char) :=
  (files.map (fun f => [] :: fileLines f)).flatten

/-- All merged-input lines surviving rules 1–4. -/
def kept14Lines (files : List (List SrcItem)) : List (List Char) :=
  (files.map (fun f => [] :: (f.map kept14ItemLines).flatten)).flatten

/-- All merged-input lines surviving rules 1–5. -/
def keptLines (files : List (List SrcItem)) : List (List Char) :=
  (files.map (fun f => [] :: (f.map keptItemLines).flatten)).flatten

/-- Collapse every run of consecutive empty lines to a single empty line
(the linewise effect of rule 6). -/
def squeeze : List (List Char) → List (List Char)
  | [] => []
  | [l] => [l]
  | l :: l2 :: rest =>
    if l.isEmpty && l2.isEmpty then squeeze (l2 :: rest)
    else l :: squeeze (l2 :: rest)

/-- `true` iff no two consecutive lines are both empty. -/
def noAdjEmpty : List (List Char) → Bool
  | [] => true
  | [_] => true
  | a :: b :: r => !(a.isEmpty && b.isEmpty) && noAdjEmpty (b :: r)

/-- A line rule 5 scans over unchanged: no newline, and not starting with
`impl `. -/
def plainLine (l : List Char) : Bool := noNl l && !(implPfx.isPrefixOf l)

/-- All lines plain. -/
def plainLines (ls : List (List Char)) : Bool := ls.all plainLine

/-- Well-formed `impl`-body lines: no newline, not starting with `}`. -/
def bodyLinesOk (b : List (List Char)) : Bool :=
  b.all (fun l => noNl l && !(l.head? == some '}'))

/-- A line list containing at most one `impl` group (header line, body
lines, a `}` closer) amid plain lines, together with the line list rule 5
leaves behind. -/
inductive ImplSplit : List (List Char) → List (List Char) → Prop where
  | allPlain (ls : List (List Char)) : plainLines ls = true → ImplSplit ls ls
  | here (hdr : List Char) (body post : List (List Char)) :
      noNl hdr = true → bodyLinesOk body = true → plainLines post = true →
      ImplSplit ((implPfx ++ hdr) :: (body ++ ['}'] :: post)) post
  | cons (l : List Char) (ls ks : List (List Char)) :
      plainLine l = true → ImplSplit ls ks → ImplSplit (l :: ls) (l :: ks)

/-- A concrete input collection exercising every construct of the claim:
file doc comments, `mod`/`pub use`/`use` declarations, attribute lines,
plain struct lines, a run of three blank lines and one `impl` block. -/
def c9DemoFiles : List (List SrcItem) :=
  [[ .docLine " My config models",
     .blankLine,
     .modLine "helpers;",
     .pubUseLine "helpers::Level;",
     .useLine "serde::Deserialize;",
     .blankLine,
     .attrLine "[derive(Deserialize)]",
     .textLine "pub struct Config \x7b",
     .textLine "    pub level: u32,",
     .textLine "\x7d",
     .blankLine,
     .blankLine,
     .blankLine,
     .implBlock "Config \x7b" ["    fn new() \x7b\x7d"],
     .textLine "pub struct Tail;" ]]

/-!  ## Helper lemmas -/

theorem stringData_append (s t : String) : (s ++ t).data = s.data ++ t.data := rfl

theorem containsSeq_of_isPrefixOf {pat l : List Char} (h : pat.isPrefixOf l = true) :
    containsSeq pat l = true := by
  cases l with
  | nil => simpa [containsSeq] using h
  | cons c r => simp [containsSeq, h]

theorem containsSeq_of_append (pat a b : List Char) :
    containsSeq pat (a ++ pat ++ b) = true := by
  induction a with
  | nil =>
    simp only [List.nil_append]
    exact containsSeq_of_isPrefixOf
      (List.isPrefixOf_iff_prefix.mpr (List.prefix_append pat b))
  | cons c a ih =>
    simp only [List.cons_append, containsSeq, Bool.or_eq_true] at ih ⊢
    right
    simpa [List.append_assoc] using ih

theorem isPrefixOf_self_append (l t : List Char) : l.isPrefixOf (l ++ t) = true :=
  List.isPrefixOf_iff_prefix.mpr (List.prefix_append l t)

theorem fsLookup_cons (e : String × String) (fs : FS) (q : String) :
    fsLookup (e :: fs) q = if e.1 = q then some e.2 else fsLookup fs q := by
  by_cases h : e.1 = q <;> simp [fsLookup, List.find?, h]

theorem fsLookup_filter_ne (fs : FS) (q p : String) (h : q ≠ p) :
    fsLookup (fs.filter (fun e => e.1 ≠ p)) q = fsLookup fs q := by
  induction fs with
  | nil => rfl
  | cons e fs ih =>
    rw [List.filter_cons]
    by_cases h1 : e.1 = p
    · rw [if_neg (by simp [h1]), fsLookup_cons,
        if_neg (by rw [h1]; exact fun hq => h hq.symm)]
      exact ih
    · rw [if_pos (by simp [h1]), fsLookup_cons, fsLookup_cons]
      by_cases h2 : e.1 = q
      · rw [if_pos h2, if_pos h2]
      · rw [if_neg h2, if_neg h2]
        exact ih

theorem fsLookup_mem {fs : FS} {p : String} {X : String}
    (h : fsLookup fs p = some X) : ∃ e ∈ fs, e.1 = p := by
  induction fs with
  | nil => simp [fsLookup] at h
  | cons e fs ih =>
    by_cases h1 : e.1 = p
    · exact ⟨e, List.mem_cons_self e fs, h1⟩
    · rw [fsLookup_cons, if_neg h1] at h
      obtain ⟨e2, he2, hp⟩ := ih h
      exact ⟨e2, List.mem_cons_of_mem e he2, hp⟩

theorem extWithDot_ne_empty {path : String} {e : String}
    (h : extWithDot path = some e) : path ≠ "" := by
  intro hp
  subst hp
  rw [(by decide : extWithDot "" = none)] at h
  exact Option.noConfusion h

/-!  ## Claim C7 -/

/-- Claim C7: codec selection maps `.ron` to the RON codec and
`.yaml`/`.yml` to the YAML codec; every other extension yields an
unsupported-format error whose diagnostic names the offending extension. -/
theorem claim_C7_thm :
    forFileExtension ".ron" = .ok .ron ∧
    forFileExtension ".yaml" = .ok .yaml ∧
    forFileExtension ".yml" = .ok .yaml ∧
    ∀ ext : String, ext ≠ ".ron" → ext ≠ ".yaml" → ext ≠ ".yml" →
      forFileExtension ext =
        .error (.unsupportedConfigFileFormat
          (unsupportedMsgA ++ ext ++ unsupportedMsgB)) ∧
      containsSeq ext.data (unsupportedMsgA ++ ext ++ unsupportedMsgB).data = true := by
  refine ⟨rfl, rfl, rfl, fun ext h1 h2 h3 => ⟨by simp [forFileExtension, h1, h2, h3], ?_⟩⟩
  have hd : (unsupportedMsgA ++ ext ++ unsupportedMsgB).data
      = unsupportedMsgA.data ++ ext.data ++ unsupportedMsgB.data := rfl
  rw [hd]
  exact containsSeq_of_append ext.data unsupportedMsgA.data unsupportedMsgB.data

/-- Witness for C7 at the concrete unsupported extension `.txt`. -/
theorem claim_C7_witness :
    forFileExtension ".txt" =
      .error (.unsupportedConfigFileFormat
        (unsupportedMsgA ++ ".txt" ++ unsupportedMsgB)) ∧
    containsSeq ".txt".data (unsupportedMsgA ++ ".txt" ++ unsupportedMsgB).data = true :=
  claim_C7_thm.2.2.2 ".txt" (by decide) (by decide) (by decide)

/-!  ## Claim C6 -/

/-- Claim C6: config-path resolution uses an explicit CLI path verbatim;
otherwise the candidates `<name>.config.ron`, `<name>.config.yaml` are tried
in order and the first existing one is returned; when none exists the result
is `<name>.config.ron`. -/
theorem claim_C6_thm : ∀ (fs : FS) (programName p : String),
    getConfigFilePath (some p) programName fs = p ∧
    (fsExists fs (programName ++ ".config.ron") = true →
      getConfigFilePath none programName fs = programName ++ ".config.ron") ∧
    (fsExists fs (programName ++ ".config.ron") = false →
      fsExists fs (programName ++ ".config.yaml") = true →
      getConfigFilePath none programName fs = programName ++ ".config.yaml") ∧
    (fsExists fs (programName ++ ".config.ron") = false →
      fsExists fs (programName ++ ".config.yaml") = false →
      getConfigFilePath none programName fs = programName ++ ".config.ron") := by
  intro fs programName p
  refine ⟨rfl, fun h1 => ?_, fun h1 h2 => ?_, fun h1 h2 => ?_⟩ <;>
    simp [getConfigFilePath, defaultConfigFilePath, firstExistingCandidate,
      CONFIG_SUFFIXES, h1]
  · simp [h2]
  · simp [h2]

/-- Witness for C6: program `app`, no CLI override, only `app.config.yaml`
exists → it is selected; on an empty disk the `.ron` candidate is returned;
an explicit CLI path is used verbatim. -/
theorem claim_C6_witness :
    getConfigFilePath (some "custom/path.yml") "app" [] = "custom/path.yml" ∧
    getConfigFilePath none "app" [("app.config.yaml", "y")] = "app.config.yaml" ∧
    getConfigFilePath none "app" [] = "app.config.ron" :=
  ⟨(claim_C6_thm [] "app" "custom/path.yml").1,
   (claim_C6_thm [("app.config.yaml", "y")] "app" "x").2.2.1 (by decide) (by decide),
   (claim_C6_thm [] "app" "x").2.2.2 (by decide) (by decide)⟩

/-!  ## Claim C10 -/

/-- Claim C10: for a path that has an extension — supported or not — and no
file on disk, `load_from_file` answers `Ok(None)`; the unsupported-extension
check only happens after a successful read.  Only a path with no extension at
all is rejected before the existence check. -/
theorem claim_C10_thm :
    (∀ (fs : FS) (path ext : String), extWithDot path = some ext →
      exceptIsOk (forFileExtension ext) = false →
      fsLookup fs path = none → dirObstructed fs path = false →
      loadFromFile path fs = .ok none) ∧
    (∀ (fs : FS) (path : String), extWithDot path = none →
      exceptIsOk (loadFromFile path fs) = false) := by
  constructor
  · intro fs path ext hext _ hlook hobs
    simp [loadFromFile, hext, fsRead, hlook, hobs]
  · intro fs path hext
    simp [loadFromFile, hext, exceptIsOk]

/-- Witness for C10: `config.txt` (unsupported extension, absent file) loads
as `Ok(None)`; extensionless `config` fails even though absent. -/
theorem claim_C10_witness :
    loadFromFile "config.txt" [] = .ok none ∧
    exceptIsOk (loadFromFile "config" []) = false :=
  ⟨claim_C10_thm.1 [] "config.txt" ".txt" (by decide) (by decide) (by decide) (by decide),
   claim_C10_thm.2 [] "config" (by decide)⟩

/-!  ## Claim C5 -/

/-- Counterexample to C5 as stated: the claim's ordering (resolve codec from
the extension, propagating unsupported-format errors, before reading) would
make loading the nonexistent `config.txt` an error; the code instead returns
`Ok(None)`, because codec resolution happens only after a successful read. -/
theorem claim_C5_counterexample :
    extWithDot "config.txt" = some ".txt" ∧
    forFileExtension ".txt" =
      .error (.unsupportedConfigFileFormat
        (unsupportedMsgA ++ ".txt" ++ unsupportedMsgB)) ∧
    loadFromFile "config.txt" [] = .ok none := by
  refine ⟨by decide, rfl, by decide⟩

/-- Claim C5 (amended): `load_from_file` first checks only that the file name
has an extension at all (none → path-annotated loading error, before any
read); then reads (`NotFound` → `None`, other read errors → path-annotated
loading error); only after a successful read is the codec resolved from the
extension (unsupported → loading error) and the text deserialized (failure →
loading error). -/
theorem claim_C5_thm : ∀ (fs : FS) (path : String),
    (extWithDot path = none →
      loadFromFile path fs = .error (.loadingConfig
        ("Error instantiating the automatic serde for file " ++ dbgQ path)
        (.unsupportedConfigFileFormat
          "Config file without an extension is not supported"))) ∧
    (∀ ext, extWithDot path = some ext →
      (fsRead fs path = .error .ioNotFound → loadFromFile path fs = .ok none) ∧
      (fsRead fs path = .error .ioNotADirectory →
        loadFromFile path fs = .error (.loadingConfig
          ("Error loading config from " ++ dbgQ path) .ioNotADirectory)) ∧
      (∀ txt err, fsRead fs path = .ok txt → forFileExtension ext = .error err →
        loadFromFile path fs = .error (.loadingConfig
          ("Error instantiating the automatic serde for file " ++ dbgQ path) err)) ∧
      (∀ txt fmt err, fsRead fs path = .ok txt → forFileExtension ext = .ok fmt →
        deserializeConfig fmt txt = .error err →
        loadFromFile path fs = .error (.loadingConfig
          ("Error deserializing config after loading from " ++ dbgQ path) err)) ∧
      (∀ txt fmt c, fsRead fs path = .ok txt → forFileExtension ext = .ok fmt →
        deserializeConfig fmt txt = .ok c →
        loadFromFile path fs = .ok (some c))) := by
  intro fs path
  constructor
  · intro h
    simp [loadFromFile, h]
  · intro ext hext
    refine ⟨fun h => ?_, fun h => ?_, fun txt err h1 h2 => ?_,
      fun txt fmt err h1 h2 h3 => ?_, fun txt fmt c h1 h2 h3 => ?_⟩ <;>
      simp [loadFromFile, hext, *]

/-- Witness for C5 (amended) at concrete inputs: a missing extension errors
without consulting the disk; a missing file with a recognized extension
yields `None`; an unreadable (obstructed) path errors. -/
theorem claim_C5_witness :
    loadFromFile "config" [("config", "zzz")] = .error (.loadingConfig
      ("Error instantiating the automatic serde for file " ++ dbgQ "config")
      (.unsupportedConfigFileFormat
        "Config file without an extension is not supported")) ∧
    loadFromFile "app.config.ron" [] = .ok none ∧
    loadFromFile "f.bin/x.ron" [("f.bin", "b")] = .error (.loadingConfig
      ("Error loading config from " ++ dbgQ "f.bin/x.ron") .ioNotADirectory) :=
  ⟨(claim_C5_thm [("config", "zzz")] "config").1 (by decide),
   ((claim_C5_thm [] "app.config.ron").2 ".ron" (by decide)).1 (by decide),
   ((claim_C5_thm [("f.bin", "b")] "f.bin/x.ron").2 ".ron" (by decide)).2.1 (by decide)⟩

/-!  ## Claims C1, C2, C4 — backup/rename behaviour -/

theorem loadFromFile_present_eq {fs : FS} {path X ext : String}
    (hext : extWithDot path = some ext) (h : fsLookup fs path = some X) :
    loadFromFile path fs =
      (match forFileExtension ext with
       | .error err => .error (.loadingConfig
           ("Error instantiating the automatic serde for file " ++ dbgQ path) err)
       | .ok serde =>
         match deserializeConfig serde X with
         | .error err => .error (.loadingConfig
             ("Error deserializing config after loading from " ++ dbgQ path) err)
         | .ok config => .ok (some config)) := by
  unfold loadFromFile
  rw [hext, show fsRead fs path = .ok X from by simp [fsRead, h]]

theorem loadFromFile_of_present {fs : FS} {path X : String}
    (h : fsLookup fs path = some X) :
    loadFromFile path fs ≠ .ok none := by
  cases hext : extWithDot path with
  | none =>
    intro hc
    unfold loadFromFile at hc
    rw [hext] at hc
    exact Except.noConfusion hc
  | some ext =>
    rw [loadFromFile_present_eq hext h]
    rcases hfe : forFileExtension ext with e | fmt
    · simp
    · rcases hde : deserializeConfig fmt X with e2 | c <;> simp [hde]

theorem loadOrCreateDefault_snd_of_present (td : String) {fs : FS} {path X : String}
    (h : fsLookup fs path = some X) :
    (loadOrCreateDefault path td fs).2 = fs := by
  unfold loadOrCreateDefault
  rcases hload : loadFromFile path fs with e | oc
  · simp [hload]
  · cases oc with
    | none => exact absurd hload (loadFromFile_of_present h)
    | some c => simp [hload]

theorem pathBufPush_tilde {path : String} (hne : path ≠ "")
    (hsl : path.data.getLast? ≠ some '/') :
    pathBufPush path "~" = path ++ "/" ++ "~" := by
  unfold pathBufPush
  rw [if_neg (by decide), if_neg hne, if_neg (by simpa using hsl)]

theorem dirObstructed_of_entry {fs : FS} {path X : String}
    (h : fsLookup fs path = some X) :
    dirObstructed fs (path ++ "/" ++ "~") = true := by
  obtain ⟨e, hmem, hp⟩ := fsLookup_mem h
  unfold dirObstructed
  rw [List.any_eq_true]
  refine ⟨e, hmem, ?_⟩
  rw [hp]
  show (path ++ "/").data.isPrefixOf ((path ++ "/" ++ "~").data) = true
  rw [show (path ++ "/" ++ "~").data = (path ++ "/").data ++ "~".data from rfl]
  exact isPrefixOf_self_append _ _

theorem fsRename_into_self {fs : FS} {path X : String}
    (h : fsLookup fs path = some X) :
    fsRename fs path (path ++ "/" ++ "~") = .error .ioNotADirectory := by
  unfold fsRename
  rw [h, dirObstructed_of_entry h]
  rfl

/-- The rename step of the rewrite always fails when a file is present at the
config path: the backup destination computed by `PathBuf::push("~")` lies
"inside" that very file. -/
theorem rewrite_rename_fails {fs : FS} {path X : String}
    (h : fsLookup fs path = some X) (hne : path ≠ "")
    (hsl : path.data.getLast? ≠ some '/') :
    fsRename fs path (pathBufPush path "~") = .error .ioNotADirectory := by
  rw [pathBufPush_tilde hne hsl]
  exact fsRename_into_self h

/-- `save_to_file` either fails leaving the file system untouched, or writes
the serialized text at the path, renaming nothing. -/
theorem saveToFile_spec (c : AppRootConfig) (t path : String) (fs : FS) :
    ((saveToFile c t path fs).2 = fs ∧
      exceptIsOk (saveToFile c t path fs).1 = false) ∨
    (∃ txt, saveToFile c t path fs =
      (.ok (), (path, txt) :: fs.filter (fun e => e.1 ≠ path))) := by
  rcases hsv : saveToFile c t path fs with ⟨res, fs2⟩
  unfold saveToFile at hsv
  split at hsv
  · left
    cases hsv
    exact ⟨rfl, rfl⟩
  · split at hsv
    · left
      cases hsv
      exact ⟨rfl, rfl⟩
    · split at hsv
      · left
        cases hsv
        exact ⟨rfl, rfl⟩
      · split at hsv
        · left
          cases hsv
          exact ⟨rfl, rfl⟩
        · rename_i txt heqser xw fsw heqw
          unfold fsWrite at heqw
          split at heqw
          · exact absurd heqw (fun hc => Except.noConfusion hc)
          · cases heqw
            cases hsv
            right
            exact ⟨txt, rfl⟩

theorem loadOrCreate_ok_ext {fs : FS} {path td X : String} {loaded : AppRootConfig}
    {fs1 : FS} (hlc : loadOrCreateDefault path td fs = (.ok loaded, fs1))
    (_h : fsLookup fs path = some X) : ∃ ext, extWithDot path = some ext := by
  cases hext : extWithDot path with
  | some ext => exact ⟨ext, rfl⟩
  | none =>
    have hload : loadFromFile path fs = .error (.loadingConfig
        ("Error instantiating the automatic serde for file " ++ dbgQ path)
        (.unsupportedConfigFileFormat
          "Config file without an extension is not supported")) := by
      unfold loadFromFile
      rw [hext]
    unfold loadOrCreateDefault at hlc
    rw [hload] at hlc
    simp at hlc

/-- With a file present at the config path, the whole rewrite step errors out
(at the rename, or earlier while re-loading) and leaves the file system
exactly as it was. -/
theorem rewrite_of_present {fs : FS} {path X td : String} {eff : AppRootConfig}
    {df : AppRootConfig → String} (h : fsLookup fs path = some X)
    (hsl : path.data.getLast? ≠ some '/') :
    exceptIsOk (rewriteEffectiveConfig path eff td df fs).1 = false ∧
    (rewriteEffectiveConfig path eff td df fs).2 = fs := by
  have hsnd := loadOrCreateDefault_snd_of_present td h
  unfold rewriteEffectiveConfig
  rcases hlc : loadOrCreateDefault path td fs with ⟨res, fs1⟩
  have hfs1 : fs1 = fs := by rw [hlc] at hsnd; exact hsnd
  subst hfs1
  cases res with
  | error e => exact ⟨rfl, rfl⟩
  | ok loaded =>
    obtain ⟨ext, hext⟩ := loadOrCreate_ok_ext hlc h
    have hne : path ≠ "" := extWithDot_ne_empty hext
    dsimp only
    rw [rewrite_rename_fails h hne hsl]
    exact ⟨rfl, rfl⟩

/-- Claim C1: the pipeline's rewrite step computes the backup path with
`PathBuf::push("~")` — producing `app.config.ron/~` (a new path component),
not `app.config.ron~` (a trailing marker character).  Renaming a file into a
path "inside" itself fails, so with `app.config.ron` present and holding the
serialized default config, the whole rewrite errors, nothing is renamed, and
no backup at `app.config.ron~` (nor at the computed path) ever exists —
contradicting both the claim and the crate's own `types.rs` documentation
("the old config file will be renamed by adding a '~' (tilde) at the end of
its name"). -/
theorem claim_C1_thm :
    pathBufPush "app.config.ron" "~" = "app.config.ron/~" ∧
    pathBufPush "app.config.ron" "~" ≠ "app.config.ron" ++ "~" ∧
    exceptIsOk (rewriteEffectiveConfig "app.config.ron" appRootConfigDefault ""
      (fun _ => "rewrite docs")
      [("app.config.ron", ronValueText appRootConfigDefault)]).1 = false ∧
    (rewriteEffectiveConfig "app.config.ron" appRootConfigDefault ""
      (fun _ => "rewrite docs")
      [("app.config.ron", ronValueText appRootConfigDefault)]).2 =
      [("app.config.ron", ronValueText appRootConfigDefault)] ∧
    fsLookup (rewriteEffectiveConfig "app.config.ron" appRootConfigDefault ""
      (fun _ => "rewrite docs")
      [("app.config.ron", ronValueText appRootConfigDefault)]).2
      ("app.config.ron" ++ "~") = none := by
  refine ⟨by decide, by decide, by decide, by decide, by decide⟩

/-- Counterexample to C2 as stated: `save_to_file` on a path holding an
existing file simply overwrites it — the operation succeeds, the new content
is in place, and the old content (`old content`) survives nowhere; no rename
happened and no path holds a backup. -/
theorem claim_C2_counterexample :
    exceptIsOk (saveToFile appRootConfigDefault "" "app.config.ron"
      [("app.config.ron", "old content")]).1 = true ∧
    fsLookup (saveToFile appRootConfigDefault "" "app.config.ron"
      [("app.config.ron", "old content")]).2 "app.config.ron" =
      some (ronValueText appRootConfigDefault) ∧
    ((saveToFile appRootConfigDefault "" "app.config.ron"
      [("app.config.ron", "old content")]).2.all
        (fun e => e.2 ≠ "old content")) = true := by
  refine ⟨by decide, by decide, by decide⟩

/-- Claim C2 (amended): `save_to_file` itself performs no rename: it either
fails leaving the file system untouched, or (over)writes the target path,
leaving every other path unchanged — an existing file at the target is
destroyed without backup.  The rename-before-write discipline lives only in
the pipeline's rewrite step, where a save at the original path can only run
after the backup rename succeeded; and with a file present there the rename
step (aimed "inside" that file) fails, so the pipeline errors out with the
file system unchanged rather than overwrite without a backup. -/
theorem claim_C2_thm :
    (∀ (c : AppRootConfig) (t path : String) (fs : FS),
      exceptIsOk (saveToFile c t path fs).1 = false →
      (saveToFile c t path fs).2 = fs) ∧
    (∀ (c : AppRootConfig) (t path : String) (fs : FS) (q : String),
      exceptIsOk (saveToFile c t path fs).1 = true → q ≠ path →
      fsLookup (saveToFile c t path fs).2 q = fsLookup fs q) ∧
    (∀ (fs : FS) (path : String) (eff : AppRootConfig) (td : String)
      (df : AppRootConfig → String) (X : String),
      fsLookup fs path = some X → path.data.getLast? ≠ some '/' →
      exceptIsOk (rewriteEffectiveConfig path eff td df fs).1 = false ∧
      (rewriteEffectiveConfig path eff td df fs).2 = fs) := by
  refine ⟨?_, ?_, ?_⟩
  · intro c t path fs h
    rcases saveToFile_spec c t path fs with ⟨h2, _⟩ | ⟨txt, heq⟩
    · exact h2
    · rw [heq] at h
      exact absurd h (by simp [exceptIsOk])
  · intro c t path fs q _ hq
    rcases saveToFile_spec c t path fs with ⟨h2, hf⟩ | ⟨txt, heq⟩
    · rw [h2]
    · rw [heq]
      show fsLookup ((path, txt) :: fs.filter (fun e => e.1 ≠ path)) q = fsLookup fs q
      rw [fsLookup_cons, if_neg (fun hc => hq (hc.symm))]
      exact fsLookup_filter_ne fs q path hq
  · intro fs path eff td df X h hsl
    exact rewrite_of_present h hsl

/-- Witness for C2 (amended), at a concrete state: a failed save (no
extension) leaves the file system unchanged; a successful save leaves other
paths unchanged; the rewrite step on an existing `app.config.ron` errors with
the file system unchanged. -/
theorem claim_C2_witness :
    ((saveToFile appRootConfigDefault "" "noext" [("a.ron", "x")]).2
      = [("a.ron", "x")]) ∧
    (fsLookup (saveToFile appRootConfigDefault "" "b.ron"
      [("a.ron", "x")]).2 "a.ron" = fsLookup [("a.ron", "x")] "a.ron") ∧
    (exceptIsOk (rewriteEffectiveConfig "app.config.ron" appRootConfigDefault ""
        (fun _ => "d") [("app.config.ron", "bad content")]).1 = false ∧
      (rewriteEffectiveConfig "app.config.ron" appRootConfigDefault ""
        (fun _ => "d") [("app.config.ron", "bad content")]).2 =
        [("app.config.ron", "bad content")]) :=
  ⟨claim_C2_thm.1 appRootConfigDefault "" "noext" [("a.ron", "x")] (by decide),
   claim_C2_thm.2.1 appRootConfigDefault "" "b.ron" [("a.ron", "x")] "a.ron"
     (by decide) (by decide),
   claim_C2_thm.2.2 [("app.config.ron", "bad content")] "app.config.ron"
     appRootConfigDefault "" (fun _ => "d") "bad content" (by decide) (by decide)⟩

/-- Claim C4: whenever the rename of the original config file to the backup
path fails, the whole rewrite is aborted with an error and the pre-existing
configuration file is left exactly as it was — no write to the original path
happens after a failed rename. -/
theorem claim_C4_thm : ∀ (fs : FS) (path : String) (eff : AppRootConfig)
    (td : String) (df : AppRootConfig → String) (X : String) (e : CrateError),
    fsLookup fs path = some X →
    fsRename fs path (pathBufPush path "~") = .error e →
    exceptIsOk (rewriteEffectiveConfig path eff td df fs).1 = false ∧
    (rewriteEffectiveConfig path eff td df fs).2 = fs ∧
    fsLookup (rewriteEffectiveConfig path eff td df fs).2 path = some X := by
  intro fs path eff td df X e h hren
  have hsnd := loadOrCreateDefault_snd_of_present td h
  unfold rewriteEffectiveConfig
  rcases hlc : loadOrCreateDefault path td fs with ⟨res, fs1⟩
  have hfs1 : fs1 = fs := by rw [hlc] at hsnd; exact hsnd
  subst hfs1
  cases res with
  | error e2 => exact ⟨rfl, rfl, h⟩
  | ok loaded =>
    dsimp only
    rw [hren]
    exact ⟨rfl, rfl, h⟩

/-- Witness for C4 at a concrete state: with `app.config.ron` present, the
rename to the computed backup path fails, the rewrite errors, and the file
is untouched. -/
theorem claim_C4_witness :
    exceptIsOk (rewriteEffectiveConfig "app.config.ron" appRootConfigDefault ""
      (fun _ => "d") [("app.config.ron", "previous")]).1 = false ∧
    (rewriteEffectiveConfig "app.config.ron" appRootConfigDefault ""
      (fun _ => "d") [("app.config.ron", "previous")]).2 =
      [("app.config.ron", "previous")] ∧
    fsLookup (rewriteEffectiveConfig "app.config.ron" appRootConfigDefault ""
      (fun _ => "d") [("app.config.ron", "previous")]).2 "app.config.ron" =
      some "previous" :=
  claim_C4_thm [("app.config.ron", "previous")] "app.config.ron"
    appRootConfigDefault "" (fun _ => "d") "previous" .ioNotADirectory
    (by decide) (by decide)


/-!  ## Claim C8 -/

theorem splitNl_noNl {a : List Char} (h : noNl a = true) : splitNl a = [a] := by
  induction a with
  | nil => rfl
  | cons c r ih =>
    rw [noNl, List.all_cons, Bool.and_eq_true] at h
    have hc : ¬c = '\n' := by simpa using h.1
    have hr : splitCh '\n' r = [r] := ih h.2
    show splitCh '\n' (c :: r) = [c :: r]
    simp only [splitCh, if_neg hc]
    rw [hr]

theorem splitNl_append_nl {a : List Char} (b : List Char) (h : noNl a = true) :
    splitNl (a ++ '\n' :: b) = a :: splitNl b := by
  induction a with
  | nil => rfl
  | cons c r ih =>
    rw [noNl, List.all_cons, Bool.and_eq_true] at h
    have hc : ¬c = '\n' := by simpa using h.1
    have hr : splitCh '\n' (r ++ '\n' :: b) = r :: splitCh '\n' b := ih h.2
    show splitCh '\n' (c :: (r ++ '\n' :: b)) = (c :: r) :: splitCh '\n' b
    simp only [splitCh, if_neg hc]
    rw [hr]

theorem hashSpace_isPrefixOf (pre : List Char) :
    ("# ".data).isPrefixOf ('#' :: ' ' :: pre) = true := by
  simp [List.isPrefixOf]

theorem noNl_hash_space {pre : List Char} (h : noNl pre = true) :
    noNl ('#' :: ' ' :: pre) = true := by
  simp [noNl] at h ⊢
  exact h

theorem commentify_cons_ne {c : Char} (d : List Char) (hc : ¬c = '\n') :
    commentify (c :: d) = c :: commentify d := by
  simp [commentify, if_neg hc]

theorem commentify_lines_prefixed : ∀ (d pre : List Char), noNl pre = true →
    ∀ l ∈ splitNl ('#' :: ' ' :: (pre ++ commentify d)),
      ("# ".data).isPrefixOf l = true := by
  intro d
  induction d with
  | nil =>
    intro pre hpre l hl
    rw [show commentify [] = [] from rfl, List.append_nil] at hl
    rw [splitNl_noNl (noNl_hash_space hpre)] at hl
    simp at hl
    subst hl
    exact hashSpace_isPrefixOf pre
  | cons c d ih =>
    intro pre hpre l hl
    by_cases hc : c = '\n'
    · subst hc
      rw [show commentify ('\n' :: d) = '\n' :: '#' :: ' ' :: commentify d from by
            simp [commentify]] at hl
      rw [show ('#' :: ' ' :: (pre ++ '\n' :: '#' :: ' ' :: commentify d))
          = ('#' :: ' ' :: pre) ++ '\n' :: ('#' :: ' ' :: ([] ++ commentify d))
          from by simp] at hl
      rw [splitNl_append_nl _ (noNl_hash_space hpre)] at hl
      rcases List.mem_cons.mp hl with hl | hl
      · subst hl
        exact hashSpace_isPrefixOf pre
      · exact ih [] rfl l hl
    · rw [commentify_cons_ne d hc] at hl
      rw [show ('#' :: ' ' :: (pre ++ c :: commentify d))
          = ('#' :: ' ' :: ((pre ++ [c]) ++ commentify d)) from by simp] at hl
      refine ih (pre ++ [c]) ?_ l hl
      simp [noNl] at hpre ⊢
      exact ⟨hpre, hc⟩

/-- Claim C8: for a non-empty tail documentation, the YAML codec appends the
banner and the documentation with every line individually prefixed by `# `
(the `(?m)^` → `"# "` regex), while the RON codec appends the banner and the
documentation wrapped once in a `/*` … `*/` block-comment pair. -/
theorem claim_C8_thm : ∀ (c : AppRootConfig) (d : String), d ≠ "" →
    yamlSerializeConfig c d = .ok (yamlValueText c ++ "\n" ++ yamlDocsBanner
      ++ String.mk ('#' :: ' ' :: commentify d.data)) ∧
    (∀ l ∈ splitNl ('#' :: ' ' :: commentify d.data),
      ("# ".data).isPrefixOf l = true) ∧
    ronSerializeConfig c d = .ok (ronValueText c
      ++ "\n\n/*\n" ++ ronDocsBanner ++ d ++ "\n*/\n") := by
  intro c d hd
  have hempty : d.isEmpty = false := by
    rw [Bool.eq_false_iff]
    intro hc
    exact hd ((String.isEmpty_iff d).mp hc)
  refine ⟨?_, ?_, ?_⟩
  · simp [yamlSerializeConfig, hempty]
  · intro l hl
    exact commentify_lines_prefixed d.data [] rfl l (by simpa using hl)
  · simp [ronSerializeConfig, hempty]

/-- Witness for C8 at the spec's own example `"line1\nline2"`: both equations
evaluate at the default config. -/
theorem claim_C8_witness :
    yamlSerializeConfig appRootConfigDefault "line1\nline2" =
      .ok (yamlValueText appRootConfigDefault ++ "\n" ++ yamlDocsBanner
        ++ String.mk ('#' :: ' ' :: commentify ("line1\nline2" : String).data)) ∧
    ronSerializeConfig appRootConfigDefault "line1\nline2" =
      .ok (ronValueText appRootConfigDefault
        ++ "\n\n/*\n" ++ ronDocsBanner ++ "line1\nline2" ++ "\n*/\n") :=
  ⟨(claim_C8_thm appRootConfigDefault "line1\nline2" (by decide)).1,
   (claim_C8_thm appRootConfigDefault "line1\nline2" (by decide)).2.2⟩

/-!  ## Claim C3 — round trips -/

theorem yamlTailOkGo_true_noNl {xs : List Char} (r : List Char)
    (h : noNl xs = true) : yamlTailOkGo true (xs ++ r) = yamlTailOkGo true r := by
  induction xs with
  | nil => rfl
  | cons c t ih =>
    rw [noNl, List.all_cons, Bool.and_eq_true] at h
    have hc : ¬c = '\n' := by simpa using h.1
    simp only [List.cons_append, yamlTailOkGo, if_neg hc]
    exact ih h.2

theorem yamlTailOkGo_commentify (d : List Char) :
    yamlTailOkGo true (commentify d) = true := by
  induction d with
  | nil => rfl
  | cons c t ih =>
    by_cases hc : c = '\n'
    · subst hc
      simp only [commentify, if_pos rfl, yamlTailOkGo, if_pos rfl,
        if_neg (by decide : ¬('#' : Char) = '\n'),
        if_pos (rfl : ('#' : Char) = '#'),
        if_neg (by decide : ¬(' ' : Char) = '\n')]
      exact ih
    · rw [commentify_cons_ne t hc]
      simp only [yamlTailOkGo, if_neg hc]
      exact ih

/-- The trailer appended by the YAML serializer is all comments and blank
lines, for any documentation string. -/
theorem yamlTrailerOk (d : List Char) :
    yamlTailOkGo false ('\n' :: (yamlDocsBanner.data
      ++ '#' :: ' ' :: commentify d)) = true := by
  have h1 : yamlTailOkGo false ('\n' :: (yamlDocsBanner.data
        ++ '#' :: ' ' :: commentify d)) = yamlTailOkGo true (commentify d) := by
    simp [yamlTailOkGo, yamlDocsBanner]
  rw [h1]
  exact yamlTailOkGo_commentify d

theorem yamlParse_value (sink : Option Dummy) (T : List Char)
    (hT : yamlTailOkGo false T = true) :
    yamlParse ((yamlValueText ⟨⟨sink⟩⟩).data ++ T) = some ⟨⟨sink⟩⟩ := by
  rcases sink with _ | d
  · simp [yamlParse, yamlValueText, yamlSinkText, yamlParseSink, expectStr,
      List.isPrefixOf, hT]
  · cases d <;>
      simp [yamlParse, yamlValueText, yamlSinkText, dummyName, yamlParseSink,
        expectStr, List.isPrefixOf, hT]

theorem yaml_round_trip (c : AppRootConfig) (d : String) :
    serializeThenDeserialize .yaml c d = .ok c := by
  obtain ⟨⟨sink⟩⟩ := c
  unfold serializeThenDeserialize serializeConfig deserializeConfig
  by_cases hd : d.isEmpty = true
  · simp only [yamlSerializeConfig, if_pos hd]
    unfold yamlDeserializeConfig
    rw [show (yamlValueText ⟨⟨sink⟩⟩).data
        = (yamlValueText ⟨⟨sink⟩⟩).data ++ [] from by simp]
    rw [yamlParse_value sink [] rfl]
  · simp only [yamlSerializeConfig, if_neg hd]
    unfold yamlDeserializeConfig
    rw [show (yamlValueText ⟨⟨sink⟩⟩ ++ "\n" ++ yamlDocsBanner
          ++ String.mk ('#' :: ' ' :: commentify d.data)).data
        = (yamlValueText ⟨⟨sink⟩⟩).data
          ++ ('\n' :: (yamlDocsBanner.data ++ '#' :: ' ' :: commentify d.data))
        from by simp [stringData_append]]
    rw [yamlParse_value sink _ (yamlTrailerOk d.data)]

theorem hasDelim_cons_false {c : Char} {t : List Char}
    (h : hasDelim (c :: t) = false) : hasDelim t = false := by
  simp only [hasDelim, containsSeq, Bool.or_eq_false_iff] at h ⊢
  exact ⟨h.1.2, h.2.2⟩

theorem hasDelim_head_slash_star (t : List Char) : hasDelim ('/' :: '*' :: t) = true := by
  simp [hasDelim, containsSeq, List.isPrefixOf]

theorem hasDelim_head_star_slash (t : List Char) : hasDelim ('*' :: '/' :: t) = true := by
  simp [hasDelim, containsSeq, List.isPrefixOf]

theorem hasDelim_cons_iff (c : Char) (t : List Char) :
    hasDelim (c :: t) = ((decide (c = '/') && decide (t.head? = some '*'))
      || (decide (c = '*') && decide (t.head? = some '/')) || hasDelim t) := by
  cases t with
  | nil => simp [hasDelim, containsSeq, List.isPrefixOf]
  | cons c2 t2 =>
    have e : ∀ a b : Char, (a == b) = decide (a = b) := fun _ _ => rfl
    by_cases h1 : c = '/' <;> by_cases h2 : c2 = '*' <;>
      by_cases h3 : c = '*' <;> by_cases h4 : c2 = '/' <;>
        simp_all [hasDelim, containsSeq, List.isPrefixOf, e, eq_comm]

theorem hasDelim_append_false {a b : List Char} (ha : hasDelim a = false)
    (hb : hasDelim b = false)
    (h1 : ¬(a.getLast? = some '/' ∧ b.head? = some '*'))
    (h2 : ¬(a.getLast? = some '*' ∧ b.head? = some '/')) :
    hasDelim (a ++ b) = false := by
  induction a with
  | nil => exact hb
  | cons c a' ih =>
    have ha' : hasDelim a' = false := hasDelim_cons_false ha
    cases a' with
    | nil =>
      rw [List.cons_append, List.nil_append, hasDelim_cons_iff]
      simp only [List.getLast?_singleton] at h1 h2
      by_cases hcs : c = '/' <;> by_cases hb1 : b.head? = some '*' <;>
        by_cases hcs2 : c = '*' <;> by_cases hb2 : b.head? = some '/' <;>
          simp_all
    | cons c2 a'' =>
      rw [hasDelim_cons_iff] at ha
      rw [List.cons_append, hasDelim_cons_iff]
      simp only [Bool.or_eq_false_iff] at ha
      have hrec := ih ha'
        (by rw [List.getLast?_cons_cons] at h1; exact h1)
        (by rw [List.getLast?_cons_cons] at h2; exact h2)
      simp only [List.cons_append, List.head?_cons] at ha ⊢
      simp only [Bool.or_eq_false_iff, Bool.and_eq_false_iff]
      simp only [Bool.and_eq_false_iff] at ha
      exact ⟨⟨ha.1.1, ha.1.2⟩, hrec⟩

theorem skipBlock_through {l : List Char} (r : List Char)
    (h : hasDelim (l ++ ['*']) = false) :
    skipTriviaGo (.block 1) (l ++ '*' :: '/' :: r) = skipTriviaGo .normal r := by
  induction l with
  | nil => simp [skipTriviaGo]
  | cons c l' ih =>
    have h' : hasDelim (l' ++ ['*']) = false :=
      hasDelim_cons_false (by simpa using h)
    specialize ih h'
    cases l' with
    | nil =>
      have hc : ¬c = '/' := by
        intro hceq
        subst hceq
        rw [show (['/'] ++ ['*'] : List Char) = '/' :: '*' :: [] from rfl,
          hasDelim_head_slash_star] at h
        cases h
      by_cases hs : c = '*'
      · subst hs
        simp [skipTriviaGo]
      · simp [skipTriviaGo, hs, hc]
    | cons c2 l'' =>
      by_cases hs : c = '*'
      · subst hs
        have hc2 : ¬c2 = '/' := by
          intro hceq
          subst hceq
          rw [show (('*' :: '/' :: l'') ++ ['*']) = '*' :: '/' :: (l'' ++ ['*'])
            from rfl, hasDelim_head_star_slash] at h
          cases h
        simpa [skipTriviaGo, hc2] using ih
      · by_cases hsl : c = '/'
        · subst hsl
          have hc2 : ¬c2 = '*' := by
            intro hceq
            subst hceq
            rw [show (('/' :: '*' :: l'') ++ ['*']) = '/' :: '*' :: (l'' ++ ['*'])
              from rfl, hasDelim_head_slash_star] at h
            cases h
          simpa [skipTriviaGo, hc2] using ih
        · simpa [skipTriviaGo, hs, hsl] using ih

theorem ron_trailer_skips (d : List Char) (hd : hasDelim d = false) :
    skipTrivia ("\n\n/*\n".data ++ (ronDocsBanner.data ++ (d ++ "\n*/\n".data)))
      = some [] := by
  have h1 : hasDelim (d ++ ['\n', '*']) = false :=
    hasDelim_append_false hd (by decide) (by simp) (by simp)
  have hlast : ('\n' :: ronDocsBanner.data).getLast? = some '\n' := by decide
  have h2 : hasDelim (('\n' :: ronDocsBanner.data) ++ (d ++ ['\n', '*'])) = false :=
    hasDelim_append_false (by decide) h1 (by simp [hlast]) (by simp [hlast])
  have hbig : hasDelim (('\n' :: (ronDocsBanner.data ++ d ++ ['\n'])) ++ ['*']) = false := by
    rw [show (('\n' :: (ronDocsBanner.data ++ d ++ ['\n'])) ++ ['*'])
        = (('\n' :: ronDocsBanner.data) ++ (d ++ ['\n', '*'])) from by simp]
    exact h2
  have step : ∀ X, skipTriviaGo .normal ('\n' :: '\n' :: '/' :: '*' :: X)
      = skipTriviaGo (.block 1) X := by
    intro X
    simp [skipTriviaGo, isRonWs]
  show skipTriviaGo .normal ('\n' :: '\n' :: '/' :: '*' :: '\n'
    :: (ronDocsBanner.data ++ (d ++ ('\n' :: '*' :: '/' :: '\n' :: [])))) = some []
  rw [step]
  rw [show ('\n' :: (ronDocsBanner.data ++ (d ++ ('\n' :: '*' :: '/' :: '\n' :: []))))
      = ('\n' :: (ronDocsBanner.data ++ d ++ ['\n'])) ++ '*' :: '/' :: ['\n']
      from by simp]
  rw [skipBlock_through ['\n'] hbig]
  rfl

theorem skipTrivia_stop (c : Char) (T : List Char) (hc1 : ¬c = '/')
    (hc2 : isRonWs c = false) : skipTriviaGo .normal (c :: T) = some (c :: T) := by
  cases T with
  | nil => simp [skipTriviaGo, hc1, hc2]
  | cons c2 r2 => simp [skipTriviaGo, hc1, hc2]

theorem ronParseValue_concrete (sink : Option Dummy) (T : List Char) :
    ronParseValue ((ronValueText ⟨⟨sink⟩⟩).data ++ T) = some (⟨⟨sink⟩⟩, T) := by
  have hstop : ∀ X, skipTriviaGo .normal (')' :: X) = some (')' :: X) :=
    fun X => skipTrivia_stop ')' X (by decide) (by decide)
  rcases sink with _ | d
  · simp [ronParseValue, ronValueText, ronSinkText, ronParseKey,
      ronParseStructClose, ronParseSink, ronOptComma, expectStr, skipTrivia,
      skipTriviaGo, isRonWs, List.isPrefixOf, Option.bind, hstop]
  · cases d <;>
      simp [ronParseValue, ronValueText, ronSinkText, dummyName, ronParseKey,
        ronParseStructClose, ronParseSink, ronOptComma, expectStr, skipTrivia,
        skipTriviaGo, isRonWs, List.isPrefixOf, Option.bind, hstop]

theorem ron_round_trip (c : AppRootConfig) (d : String)
    (hd : hasDelim d.data = false) :
    serializeThenDeserialize .ron c d = .ok c := by
  obtain ⟨⟨sink⟩⟩ := c
  unfold serializeThenDeserialize serializeConfig deserializeConfig
  by_cases hde : d.isEmpty = true
  · simp only [ronSerializeConfig, if_pos hde]
    unfold ronDeserializeConfig ronParse
    rw [show (ronValueText ⟨⟨sink⟩⟩).data
        = (ronValueText ⟨⟨sink⟩⟩).data ++ [] from by simp]
    rw [ronParseValue_concrete]
    simp [skipTrivia, skipTriviaGo, Option.bind]
  · simp only [ronSerializeConfig, if_neg hde]
    unfold ronDeserializeConfig ronParse
    rw [show (ronValueText ⟨⟨sink⟩⟩ ++ "\n\n/*\n" ++ ronDocsBanner ++ d
          ++ "\n*/\n").data
        = (ronValueText ⟨⟨sink⟩⟩).data ++ ("\n\n/*\n".data
            ++ (ronDocsBanner.data ++ (d.data ++ "\n*/\n".data)))
        from by simp [stringData_append]]
    rw [ronParseValue_concrete]
    simp only [Option.bind_eq_bind, Option.some_bind]
    rw [ron_trailer_skips d.data hd]
    simp [Option.bind]

/-- Counterexample to C3 as stated: with the RON codec and documentation
string `*/`, the serialized text's block comment is terminated early by the
documentation itself, and deserialization fails rather than returning the
original value. -/
theorem claim_C3_counterexample :
    serializeThenDeserialize .ron appRootConfigDefault "*/"
      ≠ .ok appRootConfigDefault ∧
    exceptIsOk (serializeThenDeserialize .ron appRootConfigDefault "*/")
      = false := by
  refine ⟨by decide, by decide⟩

/-- Claim C3 (amended): for every configuration value and every documentation
string, the YAML round trip returns the original value; the RON round trip
does so for every documentation string containing no block-comment delimiter
(`/*` or `*/`) — a documentation string containing one breaks the RON
round trip (see the counterexample). -/
theorem claim_C3_thm : ∀ (c : AppRootConfig) (d : String),
    serializeThenDeserialize .yaml c d = .ok c ∧
    (hasDelim d.data = false → serializeThenDeserialize .ron c d = .ok c) :=
  fun c d => ⟨yaml_round_trip c d, fun hd => ron_round_trip c d hd⟩

/-- Witness for C3 (amended) at a concrete value and multi-line docs. -/
theorem claim_C3_witness :
    serializeThenDeserialize .yaml ⟨⟨some .dStdOut⟩⟩ "multi\nline docs"
      = .ok ⟨⟨some .dStdOut⟩⟩ ∧
    serializeThenDeserialize .ron ⟨⟨some .dStdOut⟩⟩ "multi\nline docs"
      = .ok ⟨⟨some .dStdOut⟩⟩ :=
  ⟨(claim_C3_thm ⟨⟨some .dStdOut⟩⟩ "multi\nline docs").1,
   (claim_C3_thm ⟨⟨some .dStdOut⟩⟩ "multi\nline docs").2 (by decide)⟩

/-!  ## Claim C9 — the documentation extractor removes every construct

The merged input of `documentedConfigModels` decomposes into a list of
newline-separated lines; each rule's action is characterized linewise, and
the claims follow from line-level facts about the surviving lines. -/

theorem jnTail_append (a b : List (List Char)) :
    jnTail (a ++ b) = jnTail a ++ jnTail b := by
  induction a with
  | nil => rfl
  | cons l rest ih => simp [jnTail, ih]

theorem jnTail_render (ls : List (List Char)) (R : List Char) :
    jnTail ls ++ '\n' :: R
      = '\n' :: (ls.foldr (fun l acc => l ++ '\n' :: acc) [] ++ R) := by
  induction ls with
  | nil => simp [jnTail]
  | cons l rest ih => simp [jnTail, List.append_assoc, ih]

theorem merged_data_eq (files : List (List SrcItem)) :
    ("\n" ++ mergeFiles (files.map renderItems)).data
      = jnTail (bigLines files) ++ ['\n'] := by
  induction files with
  | nil => rfl
  | cons f rest ih =>
    have hmap : (f :: rest).map renderItems = renderItems f :: rest.map renderItems := rfl
    rw [hmap]
    show ('\n' :: (("\n" ++ renderItems f ++ mergeFiles (rest.map renderItems))).data)
      = jnTail (bigLines (f :: rest)) ++ ['\n']
    have hbig : bigLines (f :: rest) = ([] :: fileLines f) ++ bigLines rest := rfl
    rw [hbig, jnTail_append, stringData_append, stringData_append]
    have hM : ('\n' :: (mergeFiles (rest.map renderItems)).data)
        = jnTail (bigLines rest) ++ ['\n'] := ih
    show ('\n' :: ('\n' :: ((renderItems f).data ++ (mergeFiles (rest.map renderItems)).data)))
      = (jnTail ([] :: fileLines f) ++ jnTail (bigLines rest)) ++ ['\n']
    rw [List.append_assoc, ← hM]
    show ('\n' :: ('\n' :: ((renderItems f).data ++ (mergeFiles (rest.map renderItems)).data)))
      = jnTail ([] :: fileLines f) ++ '\n' :: (mergeFiles (rest.map renderItems)).data
    have hjn : jnTail ([] :: fileLines f) = '\n' :: jnTail (fileLines f) := by
      simp [jnTail]
    rw [hjn]
    show _ = '\n' :: (jnTail (fileLines f) ++ '\n' :: (mergeFiles (rest.map renderItems)).data)
    rw [jnTail_render]
    rfl

theorem removeAnchoredGo_scan_cons (pfxs : List (List Char)) (c : Char) (r : List Char) :
    removeAnchoredGo pfxs .scan (c :: r)
      = if c = '\n' then
          (if anyPfx pfxs r then removeAnchoredGo pfxs .del r
           else '\n' :: removeAnchoredGo pfxs .scan r)
        else c :: removeAnchoredGo pfxs .scan r := rfl

theorem removeAnchoredGo_del_cons (pfxs : List (List Char)) (c : Char) (r : List Char) :
    removeAnchoredGo pfxs .del (c :: r)
      = if c = '\n' then
          (if anyPfx pfxs r then removeAnchoredGo pfxs .del r
           else '\n' :: removeAnchoredGo pfxs .scan r)
        else removeAnchoredGo pfxs .del r := rfl

theorem removeAnchoredGo_nl (pfxs : List (List Char)) (m : LineRuleMode) (r : List Char) :
    removeAnchoredGo pfxs m ('\n' :: r)
      = if anyPfx pfxs r then removeAnchoredGo pfxs .del r
        else '\n' :: removeAnchoredGo pfxs .scan r := by
  cases m <;> rfl

theorem isPrefixOf_cons_ne {a b : Char} (h : ¬ a = b) (as bs : List Char) :
    (a :: as).isPrefixOf (b :: bs) = false := by
  show (a == b && as.isPrefixOf bs) = false
  have hb : (a == b) = false := by
    show decide (a = b) = false
    exact decide_eq_false h
  simp [hb]

theorem isPrefixOf_line_tail (p l X : List Char) (hp : noNl p = true)
    (hX : X = [] ∨ ∃ Z, X = '\n' :: Z) :
    p.isPrefixOf (l ++ X) = p.isPrefixOf l := by
  induction p generalizing l with
  | nil => simp [List.isPrefixOf]
  | cons q qs ih =>
    have hq : ¬ q = '\n' := by
      simp [noNl] at hp
      exact hp.1
    have hqs : noNl qs = true := by
      simp [noNl] at hp ⊢
      exact hp.2
    cases l with
    | nil =>
      rcases hX with h | ⟨Z, h⟩
      · rw [h]; rfl
      · rw [h]
        show (q :: qs).isPrefixOf ('\n' :: Z) = false
        exact isPrefixOf_cons_ne hq qs Z
    | cons c cs =>
      show (q == c && qs.isPrefixOf (cs ++ X)) = (q == c && qs.isPrefixOf cs)
      rw [ih cs hqs]

theorem anyPfx_line_tail (pfxs : List (List Char)) (l X : List Char)
    (hp : ∀ p ∈ pfxs, noNl p = true) (hX : X = [] ∨ ∃ Z, X = '\n' :: Z) :
    anyPfx pfxs (l ++ X) = anyPfx pfxs l := by
  induction pfxs with
  | nil => rfl
  | cons p rest ih =>
    have h1 : p.isPrefixOf (l ++ X) = p.isPrefixOf l :=
      isPrefixOf_line_tail p l X (hp p (by simp)) hX
    have h2 : anyPfx rest (l ++ X) = anyPfx rest l :=
      ih (fun q hq => hp q (by simp [hq]))
    simp [anyPfx, List.any] at h2 ⊢
    rw [h1, h2]

theorem jnTailNl_shape (ls : List (List Char)) :
    ∃ Z, jnTail ls ++ ['\n'] = '\n' :: Z := by
  cases ls with
  | nil => exact ⟨[], rfl⟩
  | cons l rest => exact ⟨(l ++ jnTail rest) ++ ['\n'], rfl⟩

theorem removeAnchoredGo_copy (pfxs : List (List Char)) (l X : List Char)
    (hl : noNl l = true) :
    removeAnchoredGo pfxs .scan (l ++ X) = l ++ removeAnchoredGo pfxs .scan X := by
  induction l with
  | nil => rfl
  | cons c cs ih =>
    have hc : ¬ c = '\n' := by
      simp [noNl] at hl
      exact hl.1
    have hcs : noNl cs = true := by
      simp [noNl] at hl ⊢
      exact hl.2
    show removeAnchoredGo pfxs .scan (c :: (cs ++ X)) = c :: (cs ++ removeAnchoredGo pfxs .scan X)
    rw [removeAnchoredGo_scan_cons, if_neg hc, ih hcs]

theorem removeAnchoredGo_del (pfxs : List (List Char)) (l X : List Char)
    (hl : noNl l = true) :
    removeAnchoredGo pfxs .del (l ++ X) = removeAnchoredGo pfxs .del X := by
  induction l with
  | nil => rfl
  | cons c cs ih =>
    have hc : ¬ c = '\n' := by
      simp [noNl] at hl
      exact hl.1
    have hcs : noNl cs = true := by
      simp [noNl] at hl ⊢
      exact hl.2
    show removeAnchoredGo pfxs .del (c :: (cs ++ X)) = removeAnchoredGo pfxs .del X
    rw [removeAnchoredGo_del_cons, if_neg hc, ih hcs]

theorem removeAnchoredGo_lines (pfxs : List (List Char))
    (hp : ∀ p ∈ pfxs, noNl p = true ∧ p ≠ []) :
    ∀ (m : LineRuleMode) (ls : List (List Char)), (∀ l ∈ ls, noNl l = true) →
    removeAnchoredGo pfxs m (jnTail ls ++ ['\n'])
      = jnTail (ls.filter (fun l => !anyPfx pfxs l)) ++ ['\n'] := by
  intro m ls
  induction ls generalizing m with
  | nil =>
    intro _
    show removeAnchoredGo pfxs m ['\n'] = ['\n']
    have hany : anyPfx pfxs [] = false := by
      simp [anyPfx]
      intro p hpmem
      rcases hp p hpmem with ⟨_, hne⟩
      cases p with
      | nil => exact absurd rfl hne
      | cons q qs => simp [List.isPrefixOf]
    rw [removeAnchoredGo_nl, hany]
    rfl
  | cons l rest ih =>
    intro hwf
    have hl : noNl l = true := hwf l (by simp)
    have hrest : ∀ x ∈ rest, noNl x = true := fun x hx => hwf x (by simp [hx])
    have hshape : jnTail (l :: rest) ++ ['\n'] = '\n' :: (l ++ (jnTail rest ++ ['\n'])) := by
      simp [jnTail]
    rw [hshape, removeAnchoredGo_nl]
    have hany : anyPfx pfxs (l ++ (jnTail rest ++ ['\n'])) = anyPfx pfxs l :=
      anyPfx_line_tail pfxs l _ (fun p hq => (hp p hq).1) (Or.inr (jnTailNl_shape rest))
    rw [hany]
    by_cases hA : anyPfx pfxs l = true
    · rw [if_pos hA, removeAnchoredGo_del pfxs l _ hl, ih .del hrest]
      have hfe : (l :: rest).filter (fun x => !anyPfx pfxs x)
          = rest.filter (fun x => !anyPfx pfxs x) := by
        simp [List.filter, hA]
      rw [hfe]
    · have hA' : anyPfx pfxs l = false := by
        cases h : anyPfx pfxs l
        · rfl
        · exact absurd h hA
      rw [if_neg (by simp [hA']), removeAnchoredGo_copy pfxs l _ hl, ih .scan hrest]
      have hfe : (l :: rest).filter (fun x => !anyPfx pfxs x)
          = l :: rest.filter (fun x => !anyPfx pfxs x) := by
        simp [List.filter, hA']
      rw [hfe]
      simp [jnTail]

theorem filter_map_data (p : List Char → Bool) (b : List String) :
    (b.map String.data).filter p = (b.filter (fun s => p s.data)).map String.data := by
  induction b with
  | nil => rfl
  | cons s rest ih =>
    by_cases h : p s.data = true
    · simp [List.filter, h, ih]
    · have h' : p s.data = false := by
        cases hc : p s.data
        · rfl
        · exact absurd hc h
      simp [List.filter, h', ih]

theorem keep1_cons (c : Char) (r : List Char) (h : ¬ '/' = c) : keep1 (c :: r) = true := by
  show (!(List.isPrefixOf ('/' :: '/' :: '!' ::[]) (c :: r) || false)) = true
  rw [isPrefixOf_cons_ne h]
  rfl

theorem keep2_cons (c : Char) (r : List Char) (hm : ¬ 'm' = c) (hp : ¬ 'p' = c) :
    keep2 (c :: r) = true := by
  show (!(List.isPrefixOf ('m' :: 'o' :: 'd' :: ' ' ::[]) (c :: r)
    || (List.isPrefixOf ('p' :: 'u' :: 'b' :: ' ' :: 'u' :: 's' :: 'e' :: ' ' ::[]) (c :: r) || false))) = true
  rw [isPrefixOf_cons_ne hm, isPrefixOf_cons_ne hp]
  rfl

theorem keep3_cons (c : Char) (r : List Char) (h : ¬ 'u' = c) : keep3 (c :: r) = true := by
  show (!(List.isPrefixOf ('u' :: 's' :: 'e' :: ' ' ::[]) (c :: r) || false)) = true
  rw [isPrefixOf_cons_ne h]
  rfl

theorem keep4_cons (c : Char) (r : List Char) (h : ¬ '#' = c) : keep4 (c :: r) = true := by
  show (!(List.isPrefixOf ('#' ::[]) (c :: r) || false)) = true
  rw [isPrefixOf_cons_ne h]
  rfl

theorem keep1_doc (s : String) : keep1 ('/' :: '/' :: '!' ::s.data) = false := by
  have h : List.isPrefixOf ('/' :: '/' :: '!' ::[]) ('/' :: '/' :: '!' ::s.data) = true :=
    isPrefixOf_self_append ('/' :: '/' :: '!' ::[]) s.data
  show (!(List.isPrefixOf ('/' :: '/' :: '!' ::[]) ('/' :: '/' :: '!' ::s.data) || false)) = false
  rw [h]
  rfl

theorem keep2_mod (s : String) : keep2 ('m' :: 'o' :: 'd' :: ' ' ::s.data) = false := by
  have h : List.isPrefixOf ('m' :: 'o' :: 'd' :: ' ' ::[]) ('m' :: 'o' :: 'd' :: ' ' ::s.data) = true :=
    isPrefixOf_self_append ('m' :: 'o' :: 'd' :: ' ' ::[]) s.data
  show (!(List.isPrefixOf ('m' :: 'o' :: 'd' :: ' ' ::[]) ('m' :: 'o' :: 'd' :: ' ' ::s.data)
    || (List.isPrefixOf ('p' :: 'u' :: 'b' :: ' ' :: 'u' :: 's' :: 'e' :: ' ' ::[]) ('m' :: 'o' :: 'd' :: ' ' ::s.data) || false))) = false
  rw [h]
  rfl

theorem keep2_pubuse (s : String) :
    keep2 ('p' :: 'u' :: 'b' :: ' ' :: 'u' :: 's' :: 'e' :: ' ' ::s.data) = false := by
  have h : List.isPrefixOf ('p' :: 'u' :: 'b' :: ' ' :: 'u' :: 's' :: 'e' :: ' ' ::[])
      ('p' :: 'u' :: 'b' :: ' ' :: 'u' :: 's' :: 'e' :: ' ' ::s.data) = true :=
    isPrefixOf_self_append ('p' :: 'u' :: 'b' :: ' ' :: 'u' :: 's' :: 'e' :: ' ' ::[]) s.data
  have hm : List.isPrefixOf ('m' :: 'o' :: 'd' :: ' ' ::[])
      ('p' :: 'u' :: 'b' :: ' ' :: 'u' :: 's' :: 'e' :: ' ' ::s.data) = false :=
    isPrefixOf_cons_ne (by decide) _ _
  show (!(List.isPrefixOf ('m' :: 'o' :: 'd' :: ' ' ::[]) ('p' :: 'u' :: 'b' :: ' ' :: 'u' :: 's' :: 'e' :: ' ' ::s.data)
    || (List.isPrefixOf ('p' :: 'u' :: 'b' :: ' ' :: 'u' :: 's' :: 'e' :: ' ' ::[])
        ('p' :: 'u' :: 'b' :: ' ' :: 'u' :: 's' :: 'e' :: ' ' ::s.data) || false))) = false
  rw [h, hm]
  rfl

theorem keep3_use (s : String) : keep3 ('u' :: 's' :: 'e' :: ' ' ::s.data) = false := by
  have h : List.isPrefixOf ('u' :: 's' :: 'e' :: ' ' ::[]) ('u' :: 's' :: 'e' :: ' ' ::s.data) = true :=
    isPrefixOf_self_append ('u' :: 's' :: 'e' :: ' ' ::[]) s.data
  show (!(List.isPrefixOf ('u' :: 's' :: 'e' :: ' ' ::[]) ('u' :: 's' :: 'e' :: ' ' ::s.data) || false)) = false
  rw [h]
  rfl

theorem keep4_attr (s : String) : keep4 ('#' ::s.data) = false := by
  have h : List.isPrefixOf ('#' ::[]) ('#' ::s.data) = true :=
    isPrefixOf_self_append ('#' ::[]) s.data
  show (!(List.isPrefixOf ('#' ::[]) ('#' ::s.data) || false)) = false
  rw [h]
  rfl

theorem keeps_of_textLineOk (s : String) (h : textLineOk s = true) :
    keep1 s.data = true ∧ keep2 s.data = true ∧ keep3 s.data = true ∧ keep4 s.data = true := by
  simp [textLineOk] at h
  simp_all [keep1, keep2, keep3, keep4, anyPfx]

theorem lines4_cons_empty (X : List (List Char)) :
    lines4 ([] :: X) = [] :: lines4 X := by
  have e1 : keep1 ([] : List Char) = true := by decide
  have e2 : keep2 ([] : List Char) = true := by decide
  have e3 : keep3 ([] : List Char) = true := by decide
  have e4 : keep4 ([] : List Char) = true := by decide
  simp [lines4, List.filter, e1, e2, e3, e4]

theorem lines4_append (A B : List (List Char)) :
    lines4 (A ++ B) = lines4 A ++ lines4 B := by
  simp [lines4, List.filter_append]

theorem lines4_item (it : SrcItem) (hok : itemOk it = true) :
    lines4 (itemLines it) = kept14ItemLines it := by
  cases it with
  | docLine s =>
    have h1 : keep1 ('/' :: '/' :: '!' ::s.data) = false := keep1_doc s
    simp [itemLines, kept14ItemLines, lines4, List.filter, h1]
  | modLine s =>
    have h1 : keep1 ('m' :: 'o' :: 'd' :: ' ' ::s.data) = true :=
      keep1_cons 'm' ('o' :: 'd' :: ' ' ::s.data) (by decide)
    have h2 : keep2 ('m' :: 'o' :: 'd' :: ' ' ::s.data) = false := keep2_mod s
    simp [itemLines, kept14ItemLines, lines4, List.filter, h1, h2]
  | pubUseLine s =>
    have h1 : keep1 ('p' :: 'u' :: 'b' :: ' ' :: 'u' :: 's' :: 'e' :: ' ' ::s.data) = true :=
      keep1_cons 'p' ('u' :: 'b' :: ' ' :: 'u' :: 's' :: 'e' :: ' ' ::s.data) (by decide)
    have h2 : keep2 ('p' :: 'u' :: 'b' :: ' ' :: 'u' :: 's' :: 'e' :: ' ' ::s.data) = false := keep2_pubuse s
    simp [itemLines, kept14ItemLines, lines4, List.filter, h1, h2]
  | useLine s =>
    have h1 : keep1 ('u' :: 's' :: 'e' :: ' ' ::s.data) = true :=
      keep1_cons 'u' ('s' :: 'e' :: ' ' ::s.data) (by decide)
    have h2 : keep2 ('u' :: 's' :: 'e' :: ' ' ::s.data) = true :=
      keep2_cons 'u' ('s' :: 'e' :: ' ' ::s.data) (by decide) (by decide)
    have h3 : keep3 ('u' :: 's' :: 'e' :: ' ' ::s.data) = false := keep3_use s
    simp [itemLines, kept14ItemLines, lines4, List.filter, h1, h2, h3]
  | attrLine s =>
    have h1 : keep1 ('#' ::s.data) = true :=
      keep1_cons '#' s.data (by decide)
    have h2 : keep2 ('#' ::s.data) = true :=
      keep2_cons '#' s.data (by decide) (by decide)
    have h3 : keep3 ('#' ::s.data) = true :=
      keep3_cons '#' s.data (by decide)
    have h4 : keep4 ('#' ::s.data) = false := keep4_attr s
    simp [itemLines, kept14ItemLines, lines4, List.filter, h1, h2, h3, h4]
  | blankLine =>
    have h := lines4_cons_empty []
    simpa [itemLines, kept14ItemLines] using h
  | textLine s =>
    have hok' : textLineOk s = true := by simpa [itemOk] using hok
    obtain ⟨h1, h2, h3, h4⟩ := keeps_of_textLineOk s hok'
    simp [itemLines, kept14ItemLines, lines4, List.filter, h1, h2, h3, h4]
  | implBlock hdr body =>
    have hh1 : keep1 ('i' :: 'm' :: 'p' :: 'l' :: ' ' ::hdr.data) = true :=
      keep1_cons 'i' ('m' :: 'p' :: 'l' :: ' ' ::hdr.data) (by decide)
    have hh2 : keep2 ('i' :: 'm' :: 'p' :: 'l' :: ' ' ::hdr.data) = true :=
      keep2_cons 'i' ('m' :: 'p' :: 'l' :: ' ' ::hdr.data) (by decide) (by decide)
    have hh3 : keep3 ('i' :: 'm' :: 'p' :: 'l' :: ' ' ::hdr.data) = true :=
      keep3_cons 'i' ('m' :: 'p' :: 'l' :: ' ' ::hdr.data) (by decide)
    have hh4 : keep4 ('i' :: 'm' :: 'p' :: 'l' :: ' ' ::hdr.data) = true :=
      keep4_cons 'i' ('m' :: 'p' :: 'l' :: ' ' ::hdr.data) (by decide)
    have hc1 : keep1 (['}'] : List Char) = true := by decide
    have hc2 : keep2 (['}'] : List Char) = true := by decide
    have hc3 : keep3 (['}'] : List Char) = true := by decide
    have hc4 : keep4 (['}'] : List Char) = true := by decide
    simp [itemLines, kept14ItemLines, lines4, List.filter, List.filter_append,
      hh1, hh2, hh3, hh4, hc1, hc2, hc3, hc4, filter_map_data]

theorem lines4_file (f : List SrcItem) (hok : f.all itemOk = true) :
    lines4 (fileLines f) = (f.map kept14ItemLines).flatten := by
  induction f with
  | nil => rfl
  | cons it rest ih =>
    simp [List.all_cons] at hok
    show lines4 (itemLines it ++ fileLines rest)
      = kept14ItemLines it ++ (rest.map kept14ItemLines).flatten
    rw [lines4_append, lines4_item it hok.1, ih (by simp [List.all_eq_true]; exact hok.2)]

theorem lines4_big (files : List (List SrcItem))
    (hok : files.all (fun f => f.all itemOk) = true) :
    lines4 (bigLines files) = kept14Lines files := by
  induction files with
  | nil => rfl
  | cons f rest ih =>
    simp [List.all_cons] at hok
    show lines4 (([] :: fileLines f) ++ bigLines rest)
      = ([] :: (f.map kept14ItemLines).flatten) ++ kept14Lines rest
    rw [lines4_append, lines4_cons_empty,
      lines4_file f (by simp [List.all_eq_true]; exact hok.1),
      ih (by simp [List.all_eq_true]; exact hok.2)]

theorem rules14_T (ls : List (List Char)) (hwf : ∀ l ∈ ls, noNl l = true) :
    removeAttrLines (removeUseClauses (removeModAndPubUseClauses
      (removeFileDocComments (jnTail ls ++ ['\n']))))
      = jnTail (lines4 ls) ++ ['\n'] := by
  have hwf1 : ∀ l ∈ ls.filter keep1, noNl l = true :=
    fun l hl => hwf l (List.mem_of_mem_filter hl)
  have hwf2 : ∀ l ∈ (ls.filter keep1).filter keep2, noNl l = true :=
    fun l hl => hwf1 l (List.mem_of_mem_filter hl)
  have hwf3 : ∀ l ∈ ((ls.filter keep1).filter keep2).filter keep3, noNl l = true :=
    fun l hl => hwf2 l (List.mem_of_mem_filter hl)
  have s1 : removeFileDocComments (jnTail ls ++ ['\n'])
      = jnTail (ls.filter keep1) ++ ['\n'] := by
    show removeAnchoredGo ["//!".data] .scan (jnTail ls ++ ['\n']) = _
    exact removeAnchoredGo_lines ["//!".data] (by decide) .scan ls hwf
  have s2 : removeModAndPubUseClauses (jnTail (ls.filter keep1) ++ ['\n'])
      = jnTail ((ls.filter keep1).filter keep2) ++ ['\n'] := by
    show removeAnchoredGo ["mod ".data, "pub use ".data] .scan _ = _
    exact removeAnchoredGo_lines ["mod ".data, "pub use ".data] (by decide) .scan
      (ls.filter keep1) hwf1
  have s3 : removeUseClauses (jnTail ((ls.filter keep1).filter keep2) ++ ['\n'])
      = jnTail (((ls.filter keep1).filter keep2).filter keep3) ++ ['\n'] := by
    show removeAnchoredGo ["use ".data] .scan _ = _
    exact removeAnchoredGo_lines ["use ".data] (by decide) .scan
      ((ls.filter keep1).filter keep2) hwf2
  have s4 : removeAttrLines (jnTail (((ls.filter keep1).filter keep2).filter keep3) ++ ['\n'])
      = jnTail ((((ls.filter keep1).filter keep2).filter keep3).filter keep4) ++ ['\n'] := by
    show removeAnchoredGo ["#".data] .scan _ = _
    exact removeAnchoredGo_lines ["#".data] (by decide) .scan
      (((ls.filter keep1).filter keep2).filter keep3) hwf3
  rw [s1, s2, s3, s4]
  rfl

theorem removeImplsGo_scan_cons (c : Char) (r : List Char) :
    removeImplsGo .scan (c :: r)
      = if c = '\n' then
          (if implPfx.isPrefixOf r && hasNlBrace r then removeImplsGo .inImpl r
           else '\n' :: removeImplsGo .scan r)
        else c :: removeImplsGo .scan r := rfl

theorem inImpl_cons_ne (c : Char) (r : List Char) (hc : ¬ c = '\n') :
    removeImplsGo .inImpl (c :: r) = removeImplsGo .inImpl r := by
  cases r with
  | nil => rfl
  | cons c2 r2 =>
    cases r2 with
    | nil =>
      show (if c = '\n' then (if c2 = '}' then ['\n'] else []) else [])
        = removeImplsGo .inImpl [c2]
      rw [if_neg hc]
      rfl
    | cons c3 r3 =>
      show (if c = '\n' then
              (if c2 = '}' then
                 (if c3 = '\n' then '\n' :: removeImplsGo .scan r3
                  else '\n' :: removeImplsGo .scan (c3 :: r3))
               else removeImplsGo .inImpl (c2 :: c3 :: r3))
            else removeImplsGo .inImpl (c2 :: c3 :: r3))
        = removeImplsGo .inImpl (c2 :: c3 :: r3)
      rw [if_neg hc]

theorem inImpl_nl_ne (c2 : Char) (X : List Char) (hc2 : ¬ c2 = '}') :
    removeImplsGo .inImpl ('\n' :: c2 :: X) = removeImplsGo .inImpl (c2 :: X) := by
  cases X with
  | nil =>
    show (if ('\n' : Char) = '\n' then (if c2 = '}' then ['\n'] else []) else [])
      = removeImplsGo .inImpl [c2]
    rw [if_pos rfl, if_neg hc2]
    rfl
  | cons c3 r3 =>
    show (if ('\n' : Char) = '\n' then
            (if c2 = '}' then
               (if c3 = '\n' then '\n' :: removeImplsGo .scan r3
                else '\n' :: removeImplsGo .scan (c3 :: r3))
             else removeImplsGo .inImpl (c2 :: c3 :: r3))
          else removeImplsGo .inImpl (c2 :: c3 :: r3))
      = removeImplsGo .inImpl (c2 :: c3 :: r3)
    rw [if_pos rfl, if_neg hc2]

theorem inImpl_chars (l X : List Char) (hl : noNl l = true) :
    removeImplsGo .inImpl (l ++ X) = removeImplsGo .inImpl X := by
  induction l with
  | nil => rfl
  | cons c cs ih =>
    have hc : ¬ c = '\n' := by
      simp [noNl] at hl
      exact hl.1
    have hcs : noNl cs = true := by
      simp [noNl] at hl ⊢
      exact hl.2
    rw [List.cons_append, inImpl_cons_ne c _ hc, ih hcs]

theorem inImpl_body (body : List (List Char)) (W : List Char)
    (hb : bodyLinesOk body = true) :
    removeImplsGo .inImpl (jnTail body ++ '\n' :: '}' ::W)
      = removeImplsGo .inImpl ('\n' :: '}' ::W) := by
  induction body with
  | nil => rfl
  | cons l rest ih =>
    simp [bodyLinesOk, List.all_cons] at hb
    obtain ⟨⟨hlnl, hlhd⟩, hrest⟩ := hb
    have hshape : jnTail (l :: rest) ++ '\n' :: '}' ::W
        = '\n' :: (l ++ (jnTail rest ++ '\n' :: '}' ::W)) := by
      simp [jnTail]
    rw [hshape]
    have hre : removeImplsGo .inImpl (jnTail rest ++ '\n' :: '}' ::W)
        = removeImplsGo .inImpl ('\n' :: '}' ::W) :=
      ih (by simp [bodyLinesOk, List.all_eq_true]; exact hrest)
    cases l with
    | nil =>
      cases rest with
      | nil =>
        exact inImpl_nl_ne '\n' ('}' ::W) (by decide)
      | cons l2 r2 =>
        have hsh2 : jnTail (l2 :: r2) ++ '\n' :: '}' ::W
            = '\n' :: ((l2 ++ jnTail r2) ++ '\n' :: '}' ::W) := by
          simp [jnTail]
        rw [List.nil_append, hsh2]
        rw [hsh2] at hre
        rw [inImpl_nl_ne '\n' _ (by decide)]
        exact hre
    | cons d ds =>
      have hd : ¬ d = '}' := by
        intro he
        rw [he] at hlhd
        simp at hlhd
      have hdnl : ¬ d = '\n' := by
        simp [noNl] at hlnl
        exact hlnl.1
      have hdsnl : noNl ds = true := by
        simp [noNl] at hlnl ⊢
        exact hlnl.2
      rw [List.cons_append, inImpl_nl_ne d _ hd, inImpl_cons_ne d _ hdnl,
        inImpl_chars ds _ hdsnl]
      exact hre

theorem hasNlBrace_nl_cons (c2 : Char) (r : List Char) :
    hasNlBrace ('\n' :: c2 :: r) = if c2 = '}' then true else hasNlBrace (c2 :: r) := rfl

theorem hasNlBrace_cons_ne (c : Char) (r : List Char) (hc : ¬ c = '\n') :
    hasNlBrace (c :: r) = hasNlBrace r := by
  cases r with
  | nil =>
    show (if c = '\n' then false else false) = false
    rw [if_neg hc]
  | cons c2 r2 =>
    show (if c = '\n' then (if c2 = '}' then true else hasNlBrace (c2 :: r2))
          else hasNlBrace (c2 :: r2)) = hasNlBrace (c2 :: r2)
    rw [if_neg hc]

theorem hasNlBrace_mid (x y : List Char) : hasNlBrace (x ++ '\n' :: '}' ::y) = true := by
  induction x with
  | nil => rfl
  | cons c x' ih =>
    by_cases hc : c = '\n'
    · subst hc
      cases x' with
      | nil =>
        rfl
      | cons c2 x'' =>
        rw [List.cons_append, List.cons_append, hasNlBrace_nl_cons]
        by_cases h2 : c2 = '}'
        · rw [if_pos h2]
        · rw [if_neg h2]
          rw [List.cons_append] at ih
          exact ih
    · rw [List.cons_append, hasNlBrace_cons_ne c _ hc]
      exact ih

theorem removeImplsGo_scan_copy (l X : List Char) (hl : noNl l = true) :
    removeImplsGo .scan (l ++ X) = l ++ removeImplsGo .scan X := by
  induction l with
  | nil => rfl
  | cons c cs ih =>
    have hc : ¬ c = '\n' := by
      simp [noNl] at hl
      exact hl.1
    have hcs : noNl cs = true := by
      simp [noNl] at hl ⊢
      exact hl.2
    rw [List.cons_append, removeImplsGo_scan_cons, if_neg hc, ih hcs]
    rfl

theorem plainLine_split {l : List Char} (h : plainLine l = true) :
    noNl l = true ∧ implPfx.isPrefixOf l = false := by
  simp [plainLine] at h
  exact h

theorem removeImplsGo_walk (pre : List (List Char)) (Y : List Char)
    (hpre : plainLines pre = true) (hY : Y = [] ∨ ∃ Z, Y = '\n' :: Z) :
    removeImplsGo .scan (jnTail pre ++ Y) = jnTail pre ++ removeImplsGo .scan Y := by
  induction pre with
  | nil => rfl
  | cons l rest ih =>
    simp [plainLines, List.all_cons] at hpre
    obtain ⟨hl, hrest⟩ := hpre
    obtain ⟨hlnl, hlpf⟩ := plainLine_split (by simpa [plainLine] using hl)
    have hshape : jnTail (l :: rest) ++ Y = '\n' :: (l ++ (jnTail rest ++ Y)) := by
      simp [jnTail]
    rw [hshape, removeImplsGo_scan_cons, if_pos rfl]
    have hXsh : jnTail rest ++ Y = [] ∨ ∃ Z, jnTail rest ++ Y = '\n' :: Z := by
      cases rest with
      | nil => simpa [jnTail] using hY
      | cons l2 r2 => exact Or.inr ⟨(l2 ++ jnTail r2) ++ Y, by simp [jnTail]⟩
    have hpf : implPfx.isPrefixOf (l ++ (jnTail rest ++ Y)) = false := by
      rw [isPrefixOf_line_tail implPfx l _ (by decide) hXsh]
      exact hlpf
    rw [hpf, Bool.false_and, if_neg (by simp)]
    rw [removeImplsGo_scan_copy l _ hlnl,
      ih (by simp [plainLines, List.all_eq_true]; exact hrest)]
    simp [jnTail, List.append_assoc]

theorem noNl_append (a b : List Char) (ha : noNl a = true) (hb : noNl b = true) :
    noNl (a ++ b) = true := by
  simp [noNl, List.all_append] at ha hb ⊢
  exact ⟨ha, hb⟩

theorem removeImplsGo_here (hdr : List Char) (body post : List (List Char))
    (hh : noNl hdr = true) (hb : bodyLinesOk body = true)
    (hpost : plainLines post = true) :
    removeImplsGo .scan (jnTail ((implPfx ++ hdr) :: (body ++ ['}'] :: post)) ++ ['\n'])
      = jnTail post ++ ['\n'] := by
  have hshape : jnTail ((implPfx ++ hdr) :: (body ++ ['}'] :: post)) ++ ['\n']
      = '\n' :: ((implPfx ++ hdr) ++ (jnTail (body ++ ['}'] :: post) ++ ['\n'])) := by
    simp [jnTail, List.append_assoc]
  rw [hshape, removeImplsGo_scan_cons, if_pos rfl]
  have hmid : jnTail (body ++ ['}'] :: post) ++ ['\n']
      = jnTail body ++ ('\n' :: '}' ::(jnTail post ++ ['\n'])) := by
    rw [jnTail_append]
    simp [jnTail, List.append_assoc]
  rw [hmid]
  have hpf : implPfx.isPrefixOf
      ((implPfx ++ hdr) ++ (jnTail body ++ ('\n' :: '}' ::(jnTail post ++ ['\n'])))) = true := by
    have h := isPrefixOf_self_append implPfx
      (hdr ++ (jnTail body ++ ('\n' :: '}' ::(jnTail post ++ ['\n']))))
    rw [List.append_assoc]
    exact h
  have hbr : hasNlBrace
      ((implPfx ++ hdr) ++ (jnTail body ++ ('\n' :: '}' ::(jnTail post ++ ['\n'])))) = true := by
    have h := hasNlBrace_mid ((implPfx ++ hdr) ++ jnTail body) (jnTail post ++ ['\n'])
    rw [List.append_assoc] at h
    exact h
  rw [hpf, hbr, Bool.true_and, if_pos rfl]
  have hnl : noNl (implPfx ++ hdr) = true := noNl_append implPfx hdr (by decide) hh
  rw [inImpl_chars _ _ hnl, inImpl_body body _ hb]
  cases post with
  | nil => rfl
  | cons p ps =>
    simp [plainLines, List.all_cons] at hpost
    obtain ⟨hp, hps⟩ := hpost
    obtain ⟨hpnl, _⟩ := plainLine_split (by simpa [plainLine] using hp)
    have hsh2 : jnTail (p :: ps) ++ ['\n'] = '\n' :: (p ++ (jnTail ps ++ ['\n'])) := by
      simp [jnTail]
    rw [hsh2]
    show '\n' :: removeImplsGo .scan (p ++ (jnTail ps ++ ['\n']))
      = '\n' :: (p ++ (jnTail ps ++ ['\n']))
    rw [removeImplsGo_scan_copy p _ hpnl,
      removeImplsGo_walk ps ['\n'] (by simp [plainLines, List.all_eq_true]; exact hps)
        (Or.inr ⟨[], rfl⟩)]
    rfl

theorem removeImpls_T (ls ks : List (List Char)) (h : ImplSplit ls ks) :
    removeImplsGo .scan (jnTail ls ++ ['\n']) = jnTail ks ++ ['\n'] := by
  induction h with
  | allPlain ls hpl =>
    rw [removeImplsGo_walk ls ['\n'] hpl (Or.inr ⟨[], rfl⟩)]
    rfl
  | here hdr body post hh hb hpost => exact removeImplsGo_here hdr body post hh hb hpost
  | cons l ls ks hl hsp ih =>
    obtain ⟨hlnl, hlpf⟩ := plainLine_split hl
    have hshape : jnTail (l :: ls) ++ ['\n'] = '\n' :: (l ++ (jnTail ls ++ ['\n'])) := by
      simp [jnTail]
    rw [hshape, removeImplsGo_scan_cons, if_pos rfl]
    have hpf : implPfx.isPrefixOf (l ++ (jnTail ls ++ ['\n'])) = false := by
      rw [isPrefixOf_line_tail implPfx l _ (by decide) (Or.inr (jnTailNl_shape ls))]
      exact hlpf
    rw [hpf, Bool.false_and, if_neg (by simp)]
    rw [removeImplsGo_scan_copy l _ hlnl, ih]
    simp [jnTail, List.append_assoc]

theorem ImplSplit_append_plain (A B K : List (List Char)) (hA : plainLines A = true)
    (h : ImplSplit B K) : ImplSplit (A ++ B) (A ++ K) := by
  induction A with
  | nil => simpa using h
  | cons l rest ih =>
    have h2 : (plainLine l && plainLines rest) = true := hA
    rw [Bool.and_eq_true] at h2
    exact ImplSplit.cons l _ _ h2.1 (ih h2.2)

theorem plainLine_of_textLineOk (s : String) (h : textLineOk s = true) :
    plainLine s.data = true := by
  simp [textLineOk] at h
  obtain ⟨⟨⟨⟨⟨⟨h0, _⟩, _⟩, _⟩, _⟩, _⟩, h6⟩ := h
  simp [plainLine]
  exact ⟨h0, h6⟩

theorem kept14_item_plain (it : SrcItem) (hok : itemOk it = true)
    (hfree : isImplBlock it = false) :
    plainLines (kept14ItemLines it) = true
      ∧ kept14ItemLines it = keptItemLines it := by
  cases it with
  | docLine s => exact ⟨rfl, rfl⟩
  | modLine s => exact ⟨rfl, rfl⟩
  | pubUseLine s => exact ⟨rfl, rfl⟩
  | useLine s => exact ⟨rfl, rfl⟩
  | attrLine s => exact ⟨rfl, rfl⟩
  | blankLine => exact ⟨by decide, rfl⟩
  | textLine s =>
    refine ⟨?_, rfl⟩
    have h1 : plainLine s.data = true :=
      plainLine_of_textLineOk s (by simpa [itemOk] using hok)
    simp [plainLines, kept14ItemLines, h1]
  | implBlock hdr body => simp [isImplBlock] at hfree

theorem plainLines_append (A B : List (List Char)) (hA : plainLines A = true)
    (hB : plainLines B = true) : plainLines (A ++ B) = true := by
  simp [plainLines, List.all_append] at hA hB ⊢
  exact ⟨hA, hB⟩

theorem kept14_file_plain (f : List SrcItem) (hok : f.all itemOk = true)
    (hfree : ∀ it ∈ f, isImplBlock it = false) :
    plainLines ((f.map kept14ItemLines).flatten) = true
      ∧ (f.map kept14ItemLines).flatten = (f.map keptItemLines).flatten := by
  induction f with
  | nil => exact ⟨rfl, rfl⟩
  | cons it rest ih =>
    simp [List.all_cons] at hok
    obtain ⟨h1, h2⟩ := kept14_item_plain it hok.1 (hfree it (by simp))
    obtain ⟨h3, h4⟩ := ih (by simp [List.all_eq_true]; exact hok.2)
      (fun x hx => hfree x (by simp [hx]))
    constructor
    · show plainLines (kept14ItemLines it ++ (rest.map kept14ItemLines).flatten) = true
      exact plainLines_append _ _ h1 h3
    · show kept14ItemLines it ++ (rest.map kept14ItemLines).flatten
        = keptItemLines it ++ (rest.map keptItemLines).flatten
      rw [h2, h4]

theorem kept14_files_plain (files : List (List SrcItem))
    (hok : files.all (fun f => f.all itemOk) = true)
    (hfree : ∀ f ∈ files, ∀ it ∈ f, isImplBlock it = false) :
    plainLines (kept14Lines files) = true ∧ kept14Lines files = keptLines files := by
  induction files with
  | nil => exact ⟨rfl, rfl⟩
  | cons f rest ih =>
    simp [List.all_cons] at hok
    obtain ⟨h1, h2⟩ := kept14_file_plain f (by simp [List.all_eq_true]; exact hok.1)
      (hfree f (by simp))
    obtain ⟨h3, h4⟩ := ih (by simp [List.all_eq_true]; exact hok.2)
      (fun x hx => hfree x (by simp [hx]))
    constructor
    · show plainLines (([] :: (f.map kept14ItemLines).flatten) ++ kept14Lines rest) = true
      refine plainLines_append _ _ ?_ h3
      have hnil : plainLine ([] : List Char) = true := by decide
      simp [plainLines, List.all_cons, hnil]
      simp [plainLines, List.all_eq_true] at h1
      exact h1
    · show ([] :: (f.map kept14ItemLines).flatten) ++ kept14Lines rest
        = ([] :: (f.map keptItemLines).flatten) ++ keptLines rest
      rw [h2, h4]

theorem implFree_of_count_zero (files : List (List SrcItem))
    (h : implCount files = 0) :
    ∀ f ∈ files, ∀ it ∈ f, isImplBlock it = false := by
  intro f hf it hit
  have hs : ∀ x ∈ files.map (fun f => f.countP isImplBlock), x = 0 :=
    List.sum_eq_zero_iff.mp h
  have hz : f.countP isImplBlock = 0 :=
    hs _ (List.mem_map.mpr ⟨f, hf, rfl⟩)
  have := List.countP_eq_zero.mp hz
  cases hb : isImplBlock it
  · rfl
  · exact absurd hb (by simpa using this it hit)

theorem exists_first_split (p : SrcItem → Bool) (f : List SrcItem)
    (h : 0 < f.countP p) :
    ∃ f1 a f2, f = f1 ++ a :: f2 ∧ p a = true ∧ f1.countP p = 0 ∧
      f.countP p = f2.countP p + 1 := by
  induction f with
  | nil => exact absurd h (by simp)
  | cons it rest ih =>
    by_cases hp : p it = true
    · exact ⟨[], it, rest, rfl, hp, rfl, by simp [List.countP_cons, hp]⟩
    · have hp' : p it = false := by
        cases hc : p it
        · rfl
        · exact absurd hc hp
      have hr : 0 < rest.countP p := by
        simpa [List.countP_cons, hp'] using h
      obtain ⟨f1, a, f2, he, ha, h1, h2⟩ := ih hr
      exact ⟨it :: f1, a, f2, by simp [he], ha,
        by simp [List.countP_cons, hp', h1],
        by simp [List.countP_cons, hp']; omega⟩

theorem kept14ItemLines_impl (hdr : String) (body : List String) :
    kept14ItemLines (.implBlock hdr body)
      = ("impl " ++ hdr).data :: (kept14Body body ++ [['}']]) := rfl

theorem bodyLinesOk_kept (body : List String) (h : body.all bodyLineOk = true) :
    bodyLinesOk (kept14Body body) = true := by
  rw [bodyLinesOk, List.all_eq_true]
  intro l hl
  obtain ⟨s, hs, hrfl⟩ := List.mem_map.mp hl
  have hsb : s ∈ body :=
    List.mem_of_mem_filter (List.mem_of_mem_filter
      (List.mem_of_mem_filter (List.mem_of_mem_filter hs)))
  have hok : bodyLineOk s = true := (List.all_eq_true.mp h) s hsb
  simp [bodyLineOk] at hok
  subst hrfl
  simpa using hok

theorem implSplit_build : ∀ files : List (List SrcItem),
    files.all (fun f => f.all itemOk) = true → implCount files ≤ 1 →
    ImplSplit (kept14Lines files) (keptLines files) := by
  intro files
  induction files with
  | nil =>
    intro _ _
    exact ImplSplit.allPlain [] (by decide)
  | cons f rest ih =>
    intro hall hcnt
    simp [List.all_cons] at hall
    obtain ⟨hf, hrest⟩ := hall
    have hfall : f.all itemOk = true := by
      simp [List.all_eq_true]
      exact hf
    have hrall : rest.all (fun g => g.all itemOk) = true := by
      simp [List.all_eq_true]
      exact hrest
    have hsum : f.countP isImplBlock + implCount rest ≤ 1 := by
      have he : implCount (f :: rest) = f.countP isImplBlock + implCount rest := by
        simp [implCount]
      rw [he] at hcnt
      exact hcnt
    by_cases himpl : f.countP isImplBlock = 0
    · have hr1 : implCount rest ≤ 1 := by omega
      have hsp := ih hrall hr1
      have hfree : ∀ it ∈ f, isImplBlock it = false := by
        intro it hit
        cases hb : isImplBlock it
        · rfl
        · exact absurd hb (by simpa using (List.countP_eq_zero.mp himpl) it hit)
      obtain ⟨hpl, heq⟩ := kept14_file_plain f hfall hfree
      show ImplSplit (([] :: (f.map kept14ItemLines).flatten) ++ kept14Lines rest)
        (([] :: (f.map keptItemLines).flatten) ++ keptLines rest)
      rw [← heq]
      refine ImplSplit_append_plain _ _ _ ?_ hsp
      show (plainLine [] && plainLines ((f.map kept14ItemLines).flatten)) = true
      rw [show plainLine ([] : List Char) = true by decide, hpl]
      rfl
    · have hpos : 0 < f.countP isImplBlock := Nat.pos_of_ne_zero himpl
      obtain ⟨f1, a, f2, hfe, hpa, hf1, hcf2⟩ := exists_first_split isImplBlock f hpos
      have hf2zero : f2.countP isImplBlock = 0 := by omega
      have hrest0 : implCount rest = 0 := by omega
      cases a with
      | docLine s => simp [isImplBlock] at hpa
      | modLine s => simp [isImplBlock] at hpa
      | pubUseLine s => simp [isImplBlock] at hpa
      | useLine s => simp [isImplBlock] at hpa
      | attrLine s => simp [isImplBlock] at hpa
      | blankLine => simp [isImplBlock] at hpa
      | textLine s => simp [isImplBlock] at hpa
      | implBlock hdr body =>
        subst hfe
        have hfall' := List.all_eq_true.mp hfall
        have hokimpl : itemOk (.implBlock hdr body) = true := hfall' _ (by simp)
        rw [show itemOk (SrcItem.implBlock hdr body)
            = (noNl hdr.data && body.all bodyLineOk) from rfl,
          Bool.and_eq_true] at hokimpl
        obtain ⟨hhdr, hbody⟩ := hokimpl
        have hf1free : ∀ it ∈ f1, isImplBlock it = false := by
          intro it hit
          cases hb : isImplBlock it
          · rfl
          · exact absurd hb (by simpa using (List.countP_eq_zero.mp hf1) it hit)
        have hf2free : ∀ it ∈ f2, isImplBlock it = false := by
          intro it hit
          cases hb : isImplBlock it
          · rfl
          · exact absurd hb (by simpa using (List.countP_eq_zero.mp hf2zero) it hit)
        have hrfree := implFree_of_count_zero rest hrest0
        have hf1ok : f1.all itemOk = true :=
          List.all_eq_true.mpr (fun it hit => hfall' it (by simp [hit]))
        have hf2ok : f2.all itemOk = true :=
          List.all_eq_true.mpr (fun it hit => hfall' it (by simp [hit]))
        obtain ⟨hpl1, heq1⟩ := kept14_file_plain f1 hf1ok hf1free
        obtain ⟨hpl2, heq2⟩ := kept14_file_plain f2 hf2ok hf2free
        obtain ⟨hplr, heqr⟩ := kept14_files_plain rest hrall hrfree
        have hsplit : ImplSplit
            (("impl " ++ hdr).data :: (kept14Body body
              ++ ['}'] :: ((f2.map kept14ItemLines).flatten ++ kept14Lines rest)))
            ((f2.map kept14ItemLines).flatten ++ kept14Lines rest) :=
          ImplSplit.here hdr.data (kept14Body body) _ hhdr
            (bodyLinesOk_kept body hbody)
            (plainLines_append _ _ hpl2 hplr)
        have e14 : kept14Lines ((f1 ++ SrcItem.implBlock hdr body :: f2) :: rest)
            = ([] :: (f1.map kept14ItemLines).flatten)
              ++ (("impl " ++ hdr).data :: (kept14Body body
                  ++ ['}'] :: ((f2.map kept14ItemLines).flatten ++ kept14Lines rest))) := by
          show ([] :: ((f1 ++ SrcItem.implBlock hdr body :: f2).map kept14ItemLines).flatten)
              ++ kept14Lines rest = _
          rw [List.map_append, List.flatten_append, List.map_cons, List.flatten_cons,
            kept14ItemLines_impl]
          simp [List.append_assoc]
        have eK : keptLines ((f1 ++ SrcItem.implBlock hdr body :: f2) :: rest)
            = ([] :: (f1.map kept14ItemLines).flatten)
              ++ ((f2.map kept14ItemLines).flatten ++ kept14Lines rest) := by
          show ([] :: ((f1 ++ SrcItem.implBlock hdr body :: f2).map keptItemLines).flatten)
              ++ keptLines rest = _
          rw [List.map_append, List.flatten_append, List.map_cons, List.flatten_cons,
            show keptItemLines (SrcItem.implBlock hdr body) = [] from rfl,
            ← heq1, ← heq2, ← heqr]
          simp [List.append_assoc]
        rw [e14, eK]
        refine ImplSplit_append_plain _ _ _ ?_ hsplit
        show (plainLine [] && plainLines ((f1.map kept14ItemLines).flatten)) = true
        rw [show plainLine ([] : List Char) = true by decide, hpl1]
        rfl

theorem collapseNlGo_scan_cons_ne (c : Char) (r : List Char) (hc : ¬ c = '\n') :
    collapseNlGo .scan (c :: r) = c :: collapseNlGo .scan r := by
  cases r with
  | nil =>
    show (if c = '\n' then ['\n'] else c :: collapseNlGo .scan []) = c :: collapseNlGo .scan []
    rw [if_neg hc]
  | cons c2 r2 =>
    show (if c = '\n' then
            (if c2 = '\n' then '\n' :: '\n' :: collapseNlGo .run r2
             else '\n' :: collapseNlGo .scan (c2 :: r2))
          else c :: collapseNlGo .scan (c2 :: r2)) = c :: collapseNlGo .scan (c2 :: r2)
    rw [if_neg hc]

theorem collapseNlGo_scan_copy (l X : List Char) (hl : noNl l = true) :
    collapseNlGo .scan (l ++ X) = l ++ collapseNlGo .scan X := by
  induction l with
  | nil => rfl
  | cons c cs ih =>
    have hc : ¬ c = '\n' := by
      simp [noNl] at hl
      exact hl.1
    have hcs : noNl cs = true := by
      simp [noNl] at hl ⊢
      exact hl.2
    rw [List.cons_append, collapseNlGo_scan_cons_ne c _ hc, ih hcs]
    rfl

theorem collapseNlGo_scan_nl_ne (c2 : Char) (X : List Char) (hc2 : ¬ c2 = '\n') :
    collapseNlGo .scan ('\n' :: c2 :: X) = '\n' :: collapseNlGo .scan (c2 :: X) := by
  show (if ('\n' : Char) = '\n' then
          (if c2 = '\n' then '\n' :: '\n' :: collapseNlGo .run X
           else '\n' :: collapseNlGo .scan (c2 :: X))
        else '\n' :: collapseNlGo .scan (c2 :: X)) = '\n' :: collapseNlGo .scan (c2 :: X)
  rw [if_pos rfl, if_neg hc2]

theorem collapseNlGo_run_nl (r : List Char) :
    collapseNlGo .run ('\n' :: r) = collapseNlGo .run r := by
  show (if ('\n' : Char) = '\n' then collapseNlGo .run r else '\n' :: collapseNlGo .scan r)
    = collapseNlGo .run r
  rw [if_pos rfl]

theorem collapseNlGo_run_cons_ne (c : Char) (r : List Char) (hc : ¬ c = '\n') :
    collapseNlGo .run (c :: r) = c :: collapseNlGo .scan r := by
  show (if c = '\n' then collapseNlGo .run r else c :: collapseNlGo .scan r)
    = c :: collapseNlGo .scan r
  rw [if_neg hc]

theorem squeeze_cons_nonempty (l : List Char) (rest : List (List Char))
    (h : l.isEmpty = false) :
    squeeze (l :: rest) = l :: squeeze rest := by
  cases rest with
  | nil => rfl
  | cons l2 r2 =>
    show (if l.isEmpty && l2.isEmpty then squeeze (l2 :: r2) else l :: squeeze (l2 :: r2))
      = l :: squeeze (l2 :: r2)
    rw [h, Bool.false_and, if_neg (by simp)]

theorem squeeze_cons_empty (ls : List (List Char)) :
    squeeze ([] :: ls) = [] :: squeeze (ls.dropWhile List.isEmpty) := by
  induction ls with
  | nil => rfl
  | cons l rest ih =>
    by_cases he : l.isEmpty = true
    · have hl : l = [] := List.isEmpty_iff.mp he
      subst hl
      have h1 : squeeze ([] :: [] :: rest) = squeeze ([] :: rest) := rfl
      rw [h1, ih]
      have h2 : (([] : List Char) :: rest).dropWhile List.isEmpty
          = rest.dropWhile List.isEmpty := by
        simp [List.dropWhile]
      rw [h2]
    · have he' : l.isEmpty = false := by
        cases hc : l.isEmpty
        · rfl
        · exact absurd hc he
      have h1 : squeeze ([] :: l :: rest) = [] :: squeeze (l :: rest) := by
        show (if (List.isEmpty ([] : List Char) && l.isEmpty)
                then squeeze (l :: rest) else [] :: squeeze (l :: rest))
          = [] :: squeeze (l :: rest)
        simp [he']
      rw [h1]
      have h2 : (l :: rest).dropWhile List.isEmpty = l :: rest := by
        simp [List.dropWhile, he']
      rw [h2]

theorem collapseNl_T_aux : ∀ (n : Nat) (ls : List (List Char)), ls.length ≤ n →
    (∀ l ∈ ls, noNl l = true) →
    (collapseNlGo .scan (jnTail ls ++ ['\n']) = jnTail (squeeze ls) ++ ['\n']
    ∧ ('\n' :: '\n' :: collapseNlGo .run (jnTail ls ++ ['\n']))
      = jnTail ([] :: squeeze (ls.dropWhile List.isEmpty)) ++ ['\n']) := by
  intro n
  induction n with
  | zero =>
    intro ls hlen _
    have h0 : ls = [] := List.length_eq_zero.mp (Nat.le_zero.mp hlen)
    subst h0
    exact ⟨rfl, rfl⟩
  | succ n ihn =>
    intro ls hlen hwf
    cases ls with
    | nil => exact ⟨rfl, rfl⟩
    | cons l rest =>
      have hlen' : rest.length ≤ n := by
        simp [List.length_cons] at hlen
        omega
      have hwl : noNl l = true := hwf l (by simp)
      have hwrest : ∀ x ∈ rest, noNl x = true := fun x hx => hwf x (by simp [hx])
      obtain ⟨ihP, ihQ⟩ := ihn rest hlen' hwrest
      constructor
      · cases l with
        | nil =>
          cases rest with
          | nil => rfl
          | cons l2 r2 =>
            have hT : jnTail ([] :: l2 :: r2) ++ ['\n']
                = '\n' :: '\n' :: (l2 ++ (jnTail r2 ++ ['\n'])) := by
              simp [jnTail]
            rw [hT]
            have hr2len : r2.length ≤ n := by
              simp [List.length_cons] at hlen
              omega
            have hwr2 : ∀ x ∈ r2, noNl x = true := fun x hx => hwrest x (by simp [hx])
            obtain ⟨ihP2, ihQ2⟩ := ihn r2 hr2len hwr2
            cases l2 with
            | nil =>
              show '\n' :: '\n' :: collapseNlGo .run ([] ++ (jnTail r2 ++ ['\n'])) = _
              rw [List.nil_append, ihQ2]
              have hs : squeeze ([] :: [] :: r2) = [] :: squeeze (r2.dropWhile List.isEmpty) := by
                rw [show squeeze (([] : List Char) :: [] :: r2) = squeeze ([] :: r2) from rfl,
                  squeeze_cons_empty]
              rw [hs]
            | cons d ds =>
              have hd : ¬ d = '\n' := by
                have := hwrest (d :: ds) (by simp)
                simp [noNl] at this
                exact this.1
              have hds : noNl ds = true := by
                have := hwrest (d :: ds) (by simp)
                simp [noNl] at this ⊢
                exact this.2
              show '\n' :: '\n' :: collapseNlGo .run ((d :: ds) ++ (jnTail r2 ++ ['\n'])) = _
              rw [List.cons_append, collapseNlGo_run_cons_ne d _ hd,
                collapseNlGo_scan_copy ds _ hds, ihP2]
              have hs : squeeze ([] :: (d :: ds) :: r2) = [] :: (d :: ds) :: squeeze r2 := by
                have h1 : squeeze ([] :: (d :: ds) :: r2) = [] :: squeeze ((d :: ds) :: r2) := by
                  show (if (List.isEmpty ([] : List Char) && (d :: ds).isEmpty)
                          then squeeze ((d :: ds) :: r2)
                        else [] :: squeeze ((d :: ds) :: r2)) = [] :: squeeze ((d :: ds) :: r2)
                  simp
                rw [h1, squeeze_cons_nonempty (d :: ds) r2 (by simp)]
              rw [hs]
              simp [jnTail, List.append_assoc]
        | cons c cs =>
          have hc : ¬ c = '\n' := by
            simp [noNl] at hwl
            exact hwl.1
          have hcs : noNl cs = true := by
            simp [noNl] at hwl ⊢
            exact hwl.2
          have hT : jnTail ((c :: cs) :: rest) ++ ['\n']
              = '\n' :: c :: (cs ++ (jnTail rest ++ ['\n'])) := by
            simp [jnTail]
          rw [hT, collapseNlGo_scan_nl_ne c _ hc, collapseNlGo_scan_cons_ne c _ hc,
            collapseNlGo_scan_copy cs _ hcs, ihP]
          rw [squeeze_cons_nonempty (c :: cs) rest (by simp)]
          simp [jnTail, List.append_assoc]
      · cases l with
        | nil =>
          have hT : jnTail ([] :: rest) ++ ['\n'] = '\n' :: (jnTail rest ++ ['\n']) := by
            simp [jnTail]
          rw [hT, collapseNlGo_run_nl, ihQ]
          have h2 : (([] : List Char) :: rest).dropWhile List.isEmpty
              = rest.dropWhile List.isEmpty := by
            simp [List.dropWhile]
          rw [h2]
        | cons d ds =>
          have hd : ¬ d = '\n' := by
            simp [noNl] at hwl
            exact hwl.1
          have hds : noNl ds = true := by
            simp [noNl] at hwl ⊢
            exact hwl.2
          have hT : jnTail ((d :: ds) :: rest) ++ ['\n']
              = '\n' :: d :: (ds ++ (jnTail rest ++ ['\n'])) := by
            simp [jnTail]
          rw [hT, collapseNlGo_run_nl, collapseNlGo_run_cons_ne d _ hd,
            collapseNlGo_scan_copy ds _ hds, ihP]
          have h2 : ((d :: ds) :: rest).dropWhile List.isEmpty = (d :: ds) :: rest := by
            simp [List.dropWhile]
          rw [h2, squeeze_cons_nonempty (d :: ds) rest (by simp)]
          simp [jnTail, List.append_assoc]

theorem collapseNl_T (ls : List (List Char)) (hwf : ∀ l ∈ ls, noNl l = true) :
    collapseNlGo .scan (jnTail ls ++ ['\n']) = jnTail (squeeze ls) ++ ['\n'] :=
  (collapseNl_T_aux ls.length ls (Nat.le_refl _) hwf).1

theorem containsSeq_cons_eq (pat : List Char) (c : Char) (r : List Char) :
    containsSeq pat (c :: r) = (pat.isPrefixOf (c :: r) || containsSeq pat r) := rfl

theorem containsSeq_nl_line (pt l X : List Char) (hl : noNl l = true) :
    containsSeq ('\n' :: pt) (l ++ X) = containsSeq ('\n' :: pt) X := by
  induction l with
  | nil => rfl
  | cons c cs ih =>
    have hc : ¬ c = '\n' := by
      simp [noNl] at hl
      exact hl.1
    have hcs : noNl cs = true := by
      simp [noNl] at hl ⊢
      exact hl.2
    rw [List.cons_append, containsSeq_cons_eq,
      isPrefixOf_cons_ne (fun he => hc he.symm), Bool.false_or, ih hcs]

theorem containsSeq_nl_T (pt : List Char) (ls : List (List Char))
    (hpt : noNl pt = true) (hne : pt ≠ [])
    (h : ∀ l ∈ ls, noNl l = true ∧ pt.isPrefixOf l = false) :
    containsSeq ('\n' :: pt) (jnTail ls ++ ['\n']) = false := by
  induction ls with
  | nil =>
    cases pt with
    | nil => exact absurd rfl hne
    | cons q qs =>
      show ((('\n' :: q :: qs).isPrefixOf ['\n'])
        || (('\n' :: q :: qs).isPrefixOf [] || containsSeq ('\n' :: q :: qs) [])) = false
      simp [List.isPrefixOf, containsSeq]
  | cons l rest ih =>
    have hl := h l (by simp)
    have hrest : ∀ x ∈ rest, noNl x = true ∧ pt.isPrefixOf x = false :=
      fun x hx => h x (by simp [hx])
    have hT : jnTail (l :: rest) ++ ['\n'] = '\n' :: (l ++ (jnTail rest ++ ['\n'])) := by
      simp [jnTail]
    rw [hT, containsSeq_cons_eq]
    have hpf : ('\n' :: pt).isPrefixOf ('\n' :: (l ++ (jnTail rest ++ ['\n']))) = false := by
      show (('\n' == '\n') && pt.isPrefixOf (l ++ (jnTail rest ++ ['\n']))) = false
      rw [isPrefixOf_line_tail pt l _ hpt (Or.inr (jnTailNl_shape rest)), hl.2]
      rfl
    rw [hpf, Bool.false_or, containsSeq_nl_line pt l _ hl.1, ih hrest]

theorem containsSeq_nnn_T (ls : List (List Char))
    (hwf : ∀ l ∈ ls, noNl l = true) (hadj : noAdjEmpty ls = true) :
    containsSeq ['\n', '\n', '\n'] (jnTail ls ++ ['\n']) = false := by
  induction ls with
  | nil => decide
  | cons l rest ih =>
    have hwl : noNl l = true := hwf l (by simp)
    have hwrest : ∀ x ∈ rest, noNl x = true := fun x hx => hwf x (by simp [hx])
    cases l with
    | cons c cs =>
      have hc : ¬ c = '\n' := by
        simp [noNl] at hwl
        exact hwl.1
      have hadj' : noAdjEmpty rest = true := by
        cases rest with
        | nil => rfl
        | cons b r2 =>
          have : (!((c :: cs).isEmpty && b.isEmpty) && noAdjEmpty (b :: r2)) = true := hadj
          rw [Bool.and_eq_true] at this
          exact this.2
      have hT : jnTail ((c :: cs) :: rest) ++ ['\n']
          = '\n' :: ((c :: cs) ++ (jnTail rest ++ ['\n'])) := by
        simp [jnTail]
      rw [hT, containsSeq_cons_eq]
      have hpf : (['\n', '\n', '\n'] : List Char).isPrefixOf
          ('\n' :: ((c :: cs) ++ (jnTail rest ++ ['\n']))) = false := by
        show (('\n' == '\n') && (['\n', '\n'] : List Char).isPrefixOf
          (c :: (cs ++ (jnTail rest ++ ['\n'])))) = false
        rw [isPrefixOf_cons_ne (fun he => hc he.symm)]
        rfl
      rw [hpf, Bool.false_or, containsSeq_nl_line _ _ _ hwl, ih hwrest hadj']
    | nil =>
      cases rest with
      | nil => decide
      | cons l2 r2 =>
        have hl2 : l2.isEmpty = false := by
          have h0 : (!((List.isEmpty ([] : List Char)) && l2.isEmpty)
              && noAdjEmpty (l2 :: r2)) = true := hadj
          rw [Bool.and_eq_true] at h0
          have := h0.1
          cases hc : l2.isEmpty
          · rfl
          · rw [hc] at this
            simp at this
        have hadj' : noAdjEmpty (l2 :: r2) = true := by
          have h0 : (!((List.isEmpty ([] : List Char)) && l2.isEmpty)
              && noAdjEmpty (l2 :: r2)) = true := hadj
          rw [Bool.and_eq_true] at h0
          exact h0.2
        cases l2 with
        | nil => simp at hl2
        | cons d ds =>
          have hd : ¬ d = '\n' := by
            have := hwrest (d :: ds) (by simp)
            simp [noNl] at this
            exact this.1
          have hT : jnTail ([] :: (d :: ds) :: r2) ++ ['\n']
              = '\n' :: '\n' :: ((d :: ds) ++ (jnTail r2 ++ ['\n'])) := by
            simp [jnTail]
          rw [hT, containsSeq_cons_eq]
          have hpf : (['\n', '\n', '\n'] : List Char).isPrefixOf
              ('\n' :: '\n' :: ((d :: ds) ++ (jnTail r2 ++ ['\n']))) = false := by
            show (('\n' == '\n') && (('\n' == '\n')
              && (['\n'] : List Char).isPrefixOf (d :: (ds ++ (jnTail r2 ++ ['\n'])))))
                = false
            rw [isPrefixOf_cons_ne (fun he => hd he.symm)]
            simp
          rw [hpf, Bool.false_or]
          have hT2 : '\n' :: ((d :: ds) ++ (jnTail r2 ++ ['\n']))
              = jnTail ((d :: ds) :: r2) ++ ['\n'] := by
            simp [jnTail]
          rw [hT2, ih hwrest hadj']

theorem squeeze_subset : ∀ (ls : List (List Char)) (l : List Char),
    l ∈ squeeze ls → l ∈ ls := by
  intro ls
  induction ls with
  | nil => intro l hl; simp [squeeze] at hl
  | cons a rest ih =>
    intro l hl
    cases rest with
    | nil => simpa [squeeze] using hl
    | cons b r2 =>
      by_cases hab : (a.isEmpty && b.isEmpty) = true
      · rw [show squeeze (a :: b :: r2)
            = squeeze (b :: r2) by rw [squeeze, if_pos hab]] at hl
        exact List.mem_cons_of_mem a (ih l hl)
      · rw [show squeeze (a :: b :: r2)
            = a :: squeeze (b :: r2) by rw [squeeze, if_neg hab]] at hl
        rcases List.mem_cons.mp hl with h | h
        · simp [h]
        · exact List.mem_cons_of_mem a (ih l h)

theorem noAdj_cons_nonempty (a : List Char) (Z : List (List Char))
    (ha : a.isEmpty = false) (hZ : noAdjEmpty Z = true) :
    noAdjEmpty (a :: Z) = true := by
  cases Z with
  | nil => rfl
  | cons z zr =>
    show (!(a.isEmpty && z.isEmpty) && noAdjEmpty (z :: zr)) = true
    rw [ha, Bool.false_and, hZ]
    rfl

theorem squeeze_noAdj : ∀ ls : List (List Char), noAdjEmpty (squeeze ls) = true := by
  intro ls
  induction ls with
  | nil => rfl
  | cons a rest ih =>
    cases rest with
    | nil => rfl
    | cons b r2 =>
      by_cases hab : (a.isEmpty && b.isEmpty) = true
      · rw [show squeeze (a :: b :: r2) = squeeze (b :: r2) by rw [squeeze, if_pos hab]]
        exact ih
      · rw [show squeeze (a :: b :: r2)
          = a :: squeeze (b :: r2) by rw [squeeze, if_neg hab]]
        cases hae : a.isEmpty
        · exact noAdj_cons_nonempty a _ hae ih
        · have hbe : b.isEmpty = false := by
            cases hbe : b.isEmpty
            · rfl
            · exact absurd (by rw [hae, hbe]; rfl) hab
          rw [squeeze_cons_nonempty b r2 hbe] at ih ⊢
          show (!(a.isEmpty && b.isEmpty) && noAdjEmpty (b :: squeeze r2)) = true
          rw [hbe, Bool.and_false, ih]
          rfl

theorem textLineOk_facts (s : String) (h : textLineOk s = true) :
    noNl s.data = true
    ∧ ("//!".data).isPrefixOf s.data = false
    ∧ ("mod ".data).isPrefixOf s.data = false
    ∧ ("pub use ".data).isPrefixOf s.data = false
    ∧ ("use ".data).isPrefixOf s.data = false
    ∧ ("#".data).isPrefixOf s.data = false
    ∧ implPfx.isPrefixOf s.data = false := by
  simp [textLineOk] at h
  obtain ⟨⟨⟨⟨⟨⟨h0, h1⟩, h2⟩, h3⟩, h4⟩, h5⟩, h6⟩ := h
  exact ⟨h0, h1, h2, h3, h4, h5, h6⟩

theorem keptLines_mem (files : List (List SrcItem))
    (hok : files.all (fun f => f.all itemOk) = true) :
    ∀ l ∈ keptLines files, l = [] ∨ ∃ s : String, l = s.data ∧ textLineOk s = true := by
  intro l hl
  rw [keptLines] at hl
  obtain ⟨chunk, hchunk, hlc⟩ := List.mem_flatten.mp hl
  obtain ⟨f, hfmem, hfe⟩ := List.mem_map.mp hchunk
  subst hfe
  rcases List.mem_cons.mp hlc with h0 | h1
  · exact Or.inl h0
  · obtain ⟨ilines, hilines, hli⟩ := List.mem_flatten.mp h1
    obtain ⟨it, hitmem, hite⟩ := List.mem_map.mp hilines
    subst hite
    have hitok : itemOk it = true :=
      (List.all_eq_true.mp ((List.all_eq_true.mp hok) f hfmem)) it hitmem
    cases it with
    | docLine s => simp [keptItemLines] at hli
    | modLine s => simp [keptItemLines] at hli
    | pubUseLine s => simp [keptItemLines] at hli
    | useLine s => simp [keptItemLines] at hli
    | attrLine s => simp [keptItemLines] at hli
    | blankLine =>
      left
      simpa [keptItemLines] using hli
    | textLine s =>
      right
      refine ⟨s, ?_, by simpa [itemOk] using hitok⟩
      simpa [keptItemLines] using hli
    | implBlock hdr body => simp [keptItemLines] at hli

theorem bigLines_noNl (files : List (List SrcItem))
    (hok : files.all (fun f => f.all itemOk) = true) :
    ∀ l ∈ bigLines files, noNl l = true := by
  intro l hl
  rw [bigLines] at hl
  obtain ⟨chunk, hchunk, hlc⟩ := List.mem_flatten.mp hl
  obtain ⟨f, hfmem, hfe⟩ := List.mem_map.mp hchunk
  subst hfe
  rcases List.mem_cons.mp hlc with h0 | h1
  · subst h0; rfl
  · rw [fileLines] at h1
    obtain ⟨ilines, hilines, hli⟩ := List.mem_flatten.mp h1
    obtain ⟨it, hitmem, hite⟩ := List.mem_map.mp hilines
    subst hite
    have hitok : itemOk it = true :=
      (List.all_eq_true.mp ((List.all_eq_true.mp hok) f hfmem)) it hitmem
    cases it with
    | docLine s =>
      have : l = ("//!" ++ s).data := by simpa [itemLines] using hli
      subst this
      exact noNl_append "//!".data s.data (by decide) (by simpa [itemOk] using hitok)
    | modLine s =>
      have : l = ("mod " ++ s).data := by simpa [itemLines] using hli
      subst this
      exact noNl_append "mod ".data s.data (by decide) (by simpa [itemOk] using hitok)
    | pubUseLine s =>
      have : l = ("pub use " ++ s).data := by simpa [itemLines] using hli
      subst this
      exact noNl_append "pub use ".data s.data (by decide) (by simpa [itemOk] using hitok)
    | useLine s =>
      have : l = ("use " ++ s).data := by simpa [itemLines] using hli
      subst this
      exact noNl_append "use ".data s.data (by decide) (by simpa [itemOk] using hitok)
    | attrLine s =>
      have : l = ("#" ++ s).data := by simpa [itemLines] using hli
      subst this
      exact noNl_append "#".data s.data (by decide) (by simpa [itemOk] using hitok)
    | blankLine =>
      have : l = [] := by simpa [itemLines] using hli
      subst this
      rfl
    | textLine s =>
      have : l = s.data := by simpa [itemLines] using hli
      subst this
      exact (textLineOk_facts s (by simpa [itemOk] using hitok)).1
    | implBlock hdr body =>
      rw [show itemOk (SrcItem.implBlock hdr body)
          = (noNl hdr.data && body.all bodyLineOk) from rfl, Bool.and_eq_true] at hitok
      rw [show itemLines (SrcItem.implBlock hdr body)
          = ("impl " ++ hdr).data :: (body.map String.data ++ [['}']]) from rfl] at hli
      rcases List.mem_cons.mp hli with hh | hb
      · subst hh
        exact noNl_append "impl ".data hdr.data (by decide) hitok.1
      · rcases List.mem_append.mp hb with hb1 | hb2
        · obtain ⟨s, hsmem, hse⟩ := List.mem_map.mp hb1
          subst hse
          have := (List.all_eq_true.mp hitok.2) s hsmem
          simp [bodyLineOk] at this
          exact this.1
        · have : l = ['}'] := by simpa using hb2
          subst this
          rfl

theorem keptLines_noNl (files : List (List SrcItem))
    (hok : files.all (fun f => f.all itemOk) = true) :
    ∀ l ∈ keptLines files, noNl l = true := by
  intro l hl
  rcases keptLines_mem files hok l hl with h0 | ⟨s, he, hs⟩
  · subst h0; rfl
  · subst he; exact (textLineOk_facts s hs).1

/-- Claim C9: for every well-formed input collection built from doc-comment
lines, `mod`/`pub use`/`use` declarations, attribute lines, blank lines,
plain text lines and at most one `impl` block, the documentation extractor's
output is exactly the surviving plain lines with every run of blank lines
collapsed to a single blank line (the rules acting sequentially in their
fixed order), and in particular the output contains none of the removed
constructs (`\n//!`, `\nmod `, `\npub use `, `\nuse `, `\n#`, `\nimpl `) and
no run of two or more consecutive blank lines (`\n\n\n`). -/
theorem claim_C9_thm (files : List (List SrcItem)) (h : filesOk files = true) :
    (documentedConfigModels (files.map renderItems)).data
      = jnTail (squeeze (keptLines files)) ++ ['\n']
    ∧ containsSeq "\n//!".data (documentedConfigModels (files.map renderItems)).data = false
    ∧ containsSeq "\nmod ".data (documentedConfigModels (files.map renderItems)).data = false
    ∧ containsSeq "\npub use ".data (documentedConfigModels (files.map renderItems)).data = false
    ∧ containsSeq "\nuse ".data (documentedConfigModels (files.map renderItems)).data = false
    ∧ containsSeq "\n#".data (documentedConfigModels (files.map renderItems)).data = false
    ∧ containsSeq "\nimpl ".data (documentedConfigModels (files.map renderItems)).data = false
    ∧ containsSeq "\n\n\n".data (documentedConfigModels (files.map renderItems)).data = false := by
  have hfk : (files.all (fun f => f.all itemOk) && decide (implCount files ≤ 1)) = true := h
  rw [Bool.and_eq_true] at hfk
  have hall := hfk.1
  have hcnt : implCount files ≤ 1 := of_decide_eq_true hfk.2
  have hbigwf := bigLines_noNl files hall
  have e0 := merged_data_eq files
  have e14 := rules14_T (bigLines files) hbigwf
  have e4 := lines4_big files hall
  have e5 := removeImpls_T _ _ (implSplit_build files hall hcnt)
  have ekwf : ∀ l ∈ keptLines files, noNl l = true := keptLines_noNl files hall
  have e6 := collapseNl_T (keptLines files) ekwf
  have emain : (documentedConfigModels (files.map renderItems)).data
      = jnTail (squeeze (keptLines files)) ++ ['\n'] := by
    show collapseNlGo .scan (removeImplsGo .scan (removeAttrLines (removeUseClauses
      (removeModAndPubUseClauses (removeFileDocComments
        (("\n" ++ mergeFiles (files.map renderItems)).data)))))) = _
    rw [e0, e14, e4, e5, e6]
  have hsqmem : ∀ l ∈ squeeze (keptLines files),
      l = [] ∨ ∃ s : String, l = s.data ∧ textLineOk s = true :=
    fun l hl => keptLines_mem files hall l (squeeze_subset _ l hl)
  have hsqwf : ∀ l ∈ squeeze (keptLines files), noNl l = true := by
    intro l hl
    rcases hsqmem l hl with h0 | ⟨s, he, hs⟩
    · subst h0; rfl
    · subst he; exact (textLineOk_facts s hs).1
  refine ⟨emain, ?_, ?_, ?_, ?_, ?_, ?_, ?_⟩
  · rw [emain]
    refine containsSeq_nl_T ("//!".data) _ (by decide) (by decide) ?_
    intro l hl
    rcases hsqmem l hl with h0 | ⟨s, he, hs⟩
    · subst h0; exact ⟨rfl, by decide⟩
    · subst he; exact ⟨(textLineOk_facts s hs).1, (textLineOk_facts s hs).2.1⟩
  · rw [emain]
    refine containsSeq_nl_T ("mod ".data) _ (by decide) (by decide) ?_
    intro l hl
    rcases hsqmem l hl with h0 | ⟨s, he, hs⟩
    · subst h0; exact ⟨rfl, by decide⟩
    · subst he; exact ⟨(textLineOk_facts s hs).1, (textLineOk_facts s hs).2.2.1⟩
  · rw [emain]
    refine containsSeq_nl_T ("pub use ".data) _ (by decide) (by decide) ?_
    intro l hl
    rcases hsqmem l hl with h0 | ⟨s, he, hs⟩
    · subst h0; exact ⟨rfl, by decide⟩
    · subst he; exact ⟨(textLineOk_facts s hs).1, (textLineOk_facts s hs).2.2.2.1⟩
  · rw [emain]
    refine containsSeq_nl_T ("use ".data) _ (by decide) (by decide) ?_
    intro l hl
    rcases hsqmem l hl with h0 | ⟨s, he, hs⟩
    · subst h0; exact ⟨rfl, by decide⟩
    · subst he; exact ⟨(textLineOk_facts s hs).1, (textLineOk_facts s hs).2.2.2.2.1⟩
  · rw [emain]
    refine containsSeq_nl_T ("#".data) _ (by decide) (by decide) ?_
    intro l hl
    rcases hsqmem l hl with h0 | ⟨s, he, hs⟩
    · subst h0; exact ⟨rfl, by decide⟩
    · subst he; exact ⟨(textLineOk_facts s hs).1, (textLineOk_facts s hs).2.2.2.2.2.1⟩
  · rw [emain]
    refine containsSeq_nl_T ("impl ".data) _ (by decide) (by decide) ?_
    intro l hl
    rcases hsqmem l hl with h0 | ⟨s, he, hs⟩
    · subst h0; exact ⟨rfl, by decide⟩
    · subst he; exact ⟨(textLineOk_facts s hs).1, (textLineOk_facts s hs).2.2.2.2.2.2⟩
  · rw [emain]
    exact containsSeq_nnn_T _ hsqwf (squeeze_noAdj _)

/-- Witness for C9 at a concrete input containing every construct kind, a
three-blank-line run and one `impl` block. -/
theorem claim_C9_witness :
    filesOk c9DemoFiles = true
    ∧ ((documentedConfigModels (c9DemoFiles.map renderItems)).data
        = jnTail (squeeze (keptLines c9DemoFiles)) ++ ['\n']
      ∧ containsSeq "\n//!".data (documentedConfigModels (c9DemoFiles.map renderItems)).data = false
      ∧ containsSeq "\nmod ".data (documentedConfigModels (c9DemoFiles.map renderItems)).data = false
      ∧ containsSeq "\npub use ".data (documentedConfigModels (c9DemoFiles.map renderItems)).data = false
      ∧ containsSeq "\nuse ".data (documentedConfigModels (c9DemoFiles.map renderItems)).data = false
      ∧ containsSeq "\n#".data (documentedConfigModels (c9DemoFiles.map renderItems)).data = false
      ∧ containsSeq "\nimpl ".data (documentedConfigModels (c9DemoFiles.map renderItems)).data = false
      ∧ containsSeq "\n\n\n".data (documentedConfigModels (c9DemoFiles.map renderItems)).data = false) :=
  ⟨by decide, claim_C9_thm c9DemoFiles (by decide)⟩
